import Mathlib

/-!
# Verification of the RFSim numerical core against its specification

Shallow embedding of the parameter resolver (`core/parameters/resolver.py`),
the netlist graph (`core/topology/netlist_graph.py`), the factorization
cache keys (`core/stamping/_cache.py`), the per-point reduction pipeline
(`core/stamping/_worker.py`, `core/stamping/matrix_builder.py`) and the
Y-to-S conversion (`utils/matrix.py`).

Modelling conventions:
* Python `float` values are modelled by `PFloat` (an exact rational, or one
  of the non-finite values `inf`, `ninf`, `nan`); double rounding is not
  modelled, arithmetic is exact.
* `numpy.complex128` entries are modelled by `CQ`, complex numbers with
  exact rational real and imaginary parts.
* Python `dict`s are modelled by association lists in insertion order with
  `Nodup` keys; Python `set`s of strings are modelled by duplicate-free
  lists in an arbitrary (unspecified) enumeration order, because CPython's
  set iteration order for strings is unspecified.
* External libraries (sympy parsing, pint unit parsing) are modelled at
  their post-parse interface: an input value carries the outcome of those
  parsers (`RawParam`), since the resolver's control flow only branches on
  that outcome.
-/

namespace RFSim

/- Core marks rational arithmetic `@[irreducible]`, which blocks `decide`
on concrete rational computations; the kernel reduces them fine. -/
attribute [local semireducible] Rat.add Rat.mul Rat.sub Rat.inv

instance {ε α : Type _} [DecidableEq ε] [DecidableEq α] : DecidableEq (Except ε α) := fun x y =>
  match x, y with
  | .ok a, .ok b =>
      if h : a = b then .isTrue (by rw [h]) else .isFalse (by intro hh; cases hh; exact h rfl)
  | .error a, .error b =>
      if h : a = b then .isTrue (by rw [h]) else .isFalse (by intro hh; cases hh; exact h rfl)
  | .ok _, .error _ => .isFalse (by intro h; cases h)
  | .error _, .ok _ => .isFalse (by intro h; cases h)

/-- Model of a Python `float` value: an exact rational, `inf`, `-inf` or
`nan`.  Rounding is not modelled. -/
inductive PFloat where
  | fin (q : ℚ)
  | inf
  | ninf
  | nan
deriving DecidableEq, Repr

/-- `math.isfinite` on a modelled float. -/
def PFloat.isFinite : PFloat → Bool
  | .fin _ => true
  | _ => false

/-- Finite part of a modelled float, `none` for `inf`/`-inf`/`nan`. -/
def PFloat.toQ : PFloat → Option ℚ
  | .fin q => some q
  | _ => none

/-- Model of a parsed sympy expression: the arithmetic fragment the
resolver evaluates (`expr.evalf(subs=resolved)` followed by `float(...)`).
Function applications (`sin`, `exp`, ...) are not needed by any claim and
are omitted; they would be further constructors evaluated the same way. -/
inductive SExpr where
  | lit (q : ℚ)
  | var (s : String)
  | add (a b : SExpr)
  | sub (a b : SExpr)
  | mul (a b : SExpr)
  | div (a b : SExpr)
  | neg (a : SExpr)
deriving DecidableEq, Repr

/-- The free identifiers of an expression (`expr.free_symbols`), as the
list of names in traversal order, possibly with duplicates. -/
def SExpr.freeVars : SExpr → List String
  | .lit _ => []
  | .var s => [s]
  | .add a b => a.freeVars ++ b.freeVars
  | .sub a b => a.freeVars ++ b.freeVars
  | .mul a b => a.freeVars ++ b.freeVars
  | .div a b => a.freeVars ++ b.freeVars
  | .neg a => a.freeVars

/-- Numeric evaluation of a parsed expression against an environment:
models `float(expr.evalf(subs=env))`.  A lookup failure (an unresolved
symbol left in the result) or a division by zero (sympy `zoo`) makes the
final `float(...)` conversion raise, modelled by `none`.  Substituting a
non-finite value is likewise modelled as a failure (the symbolic
infinities it produces do not convert to a Python float). -/
def SExpr.evalQ (env : String → Option ℚ) : SExpr → Option ℚ
  | .lit q => some q
  | .var s => env s
  | .add a b => do pure ((← a.evalQ env) + (← b.evalQ env))
  | .sub a b => do pure ((← a.evalQ env) - (← b.evalQ env))
  | .mul a b => do pure ((← a.evalQ env) * (← b.evalQ env))
  | .div a b => do
      let x ← a.evalQ env
      let y ← b.evalQ env
      if y = 0 then none else pure (x / y)
  | .neg a => do pure (-(← a.evalQ env))

/-- A value of the input mapping of `resolve`, classified by the outcome
of the library parsers the resolver calls on it:
* `num x` — an `int`/`float` value;
* `unitStr mag` — a string `pint` parses as a quantity, with base-unit
  magnitude `mag`;
* `exprStr e` — a string `pint` rejects and `core.safe_math.parse_expr`
  parses as the sympy expression `e`;
* `badStr` — a string both parsers reject;
* `sexpr e` — an already-parsed `sympy.Expr`;
* `other` — a value of any unsupported type. -/
inductive RawParam where
  | num (x : PFloat)
  | unitStr (mag : PFloat)
  | exprStr (e : SExpr)
  | badStr
  | sexpr (e : SExpr)
  | other
deriving DecidableEq, Repr

/-- Error raised by the resolver (every constructor models a
`ParameterError` with the given trigger). -/
inductive RErr where
  | parse (k : String)
  | unsupported (k : String)
  | cycle
  | unitParse (k : String)
  | evalFail (k : String)
  | unhandled (k : String)
deriving DecidableEq, Repr

/-- Keys of a parameter dictionary in insertion order. -/
def keysOf (d : List (String × RawParam)) : List String := d.map Prod.fst

/-- Dependencies extracted for key `k` from a parsed expression `e`:
`{str(sym) | sym ∈ e.free_symbols, str(sym) ≠ k, str(sym) ∈ param_dict}`
(`_build_dependency_graph`, resolver.py lines 68-73).  The Python `set`
is modelled as a deduplicated list. -/
def depsOf (keys : List String) (k : String) (e : SExpr) : List String :=
  (e.freeVars.filter (fun n => n ≠ k && decide (n ∈ keys))).dedup

/-- One iteration of `_build_dependency_graph`'s loop body for entry
`(k, v)`: returns the (possibly) overwritten dictionary value together
with the dependency list, or the raised error.  Mirrors resolver.py
lines 38-74: numbers pass through with no dependencies; unit strings are
overwritten in place by their magnitude; other strings are parsed and the
parsed expression is cached in place; unsupported types raise. -/
def buildStep (keys : List String) : String × RawParam → Except RErr (RawParam × List String)
  | (_, .num x) => .ok (.num x, [])
  | (_, .unitStr m) => .ok (.num m, [])
  | (k, .exprStr e) => .ok (.sexpr e, depsOf keys k e)
  | (k, .badStr) => .error (.parse k)
  | (k, .sexpr e) => .ok (.sexpr e, depsOf keys k e)
  | (k, .other) => .error (.unsupported k)

/-- `_build_dependency_graph` over the entries of `d` in insertion order.
On success returns the mutated dictionary and the dependency graph (key →
dependency list, in insertion order).  On failure returns the raised
error together with the dictionary state at the time of the raise
(entries before the failing one are already mutated in place). -/
def buildDG (keys : List String) :
    List (String × RawParam) →
      Except (RErr × List (String × RawParam))
        (List (String × RawParam) × List (String × List String))
  | [] => .ok ([], [])
  | (k, v) :: rest =>
      match buildStep keys (k, v) with
      | .error e => .error (e, (k, v) :: rest)
      | .ok (v', deps) =>
          match buildDG keys rest with
          | .error (e, restState) => .error (e, (k, v') :: restState)
          | .ok (rest', g) => .ok ((k, v') :: rest', (k, deps) :: g)

/-- `_build_dependency_graph(param_dict)`. -/
def buildDepGraph (d : List (String × RawParam)) :
    Except (RErr × List (String × RawParam))
      (List (String × RawParam) × List (String × List String)) :=
  buildDG (keysOf d) d

/-! ## Kahn's algorithm (`_topological_sort`, resolver.py lines 79-106) -/

/-- Dependency list of node `k` in graph `g` (`graph[node]`). -/
def depsIn (g : List (String × List String)) (k : String) : List String :=
  (g.lookup k).getD []

/-- `reverse_map[d]`: the nodes whose dependency list contains `d`.  The
Python value is a `set` built in graph insertion order; it is modelled as
the list of such nodes in graph order (duplicate-free when the graph keys
are). -/
def revMap (g : List (String × List String)) (d : String) : List String :=
  (g.filter (fun p => decide (d ∈ p.2))).map Prod.fst

/-- The inner `for dependent in reverse_map.get(n, [])` loop: decrement
the in-degree of every dependent of the popped node, appending those that
reach zero to the queue, in iteration order. -/
def relax : (String → ℤ) × List String → List String → (String → ℤ) × List String
  | st, [] => st
  | (indeg, queue), d :: ds =>
      let v := indeg d - 1
      relax (fun x => if x = d then v else indeg x,
             if v = 0 then queue ++ [d] else queue) ds

/-- The `while queue:` loop of Kahn's algorithm, with explicit fuel (the
Python loop terminates because every enqueue is justified by an in-degree
decrement; the fuel passed by `kahn` dominates that bound). -/
def kahnLoop (g : List (String × List String)) :
    ℕ → (String → ℤ) → List String → List String → List String
  | 0, _, _, acc => acc
  | fuel + 1, indeg, queue, acc =>
      match queue with
      | [] => acc
      | n :: rest =>
          let st := relax (indeg, rest) (revMap g n)
          kahnLoop g fuel st.1 st.2 (acc ++ [n])

/-- `_topological_sort(graph)`: initial in-degrees count each node's
dependencies, the initial queue holds the zero-in-degree nodes in graph
order, and a final length check raises the circular-dependency
`ParameterError`. -/
def kahn (g : List (String × List String)) : Except RErr (List String) :=
  let indeg0 : String → ℤ := fun x => ((g.lookup x).getD []).length
  let queue0 : List String := (g.filter (fun p => p.2.isEmpty)).map Prod.fst
  let fuel := g.length + (g.map (fun p => p.2.length)).sum + 1
  let sorted := kahnLoop g fuel indeg0 queue0 []
  if sorted.length = g.length then .ok sorted else .error .cycle

/-! ## `resolve` (resolver.py lines 109-156) -/

/-- Lookup in the running `resolved` dictionary, converted for
substitution into `evalf` (see `SExpr.evalQ` on non-finite values). -/
def lookupPF (resolved : List (String × PFloat)) (s : String) : Option ℚ :=
  (resolved.lookup s).bind PFloat.toQ

/-- The body of `resolve`'s evaluation loop for key `k`: dispatch on the
(mutated) dictionary value exactly as resolver.py lines 127-154 does.
After `_build_dependency_graph` only `num` and `sexpr` values remain; the
string branches are kept to mirror the source (a leftover string that is
a unit literal would resolve to its magnitude, any other leftover value
reaches the catch-all `ParameterError`). -/
def resolveEntry (dict : List (String × RawParam)) (resolved : List (String × PFloat))
    (k : String) : Except RErr PFloat :=
  match dict.lookup k with
  | some (.num x) => .ok x
  | some (.unitStr m) => .ok m
  | some (.sexpr e) =>
      match e.evalQ (lookupPF resolved) with
      | some v => .ok (.fin v)
      | none => .error (.evalFail k)
  | some (.exprStr _) => .error (.unhandled k)
  | some .badStr => .error (.unhandled k)
  | some .other => .error (.unhandled k)
  | none => .error (.unhandled k)

/-- `for key in order: ...` — evaluate keys in topological order,
accumulating the `resolved` dictionary in insertion order. -/
def resolveLoop (dict : List (String × RawParam)) :
    List String → List (String × PFloat) → Except RErr (List (String × PFloat))
  | [], resolved => .ok resolved
  | k :: rest, resolved =>
      match resolveEntry dict resolved k with
      | .error e => .error e
      | .ok v => resolveLoop dict rest (resolved ++ [(k, v)])

/-- `resolve(param_dict)`, also returning the final state of the caller's
dictionary (which `_build_dependency_graph` mutates in place). -/
def resolveRun (d : List (String × RawParam)) :
    Except RErr (List (String × PFloat)) × List (String × RawParam) :=
  match buildDepGraph d with
  | .error (e, st) => (.error e, st)
  | .ok (d2, g) =>
      match kahn g with
      | .error e => (.error e, d2)
      | .ok order => (resolveLoop d2 order [], d2)

/-- `resolve(param_dict)`'s return value (or raised error). -/
def resolve (d : List (String × RawParam)) : Except RErr (List (String × PFloat)) :=
  (resolveRun d).1

/-- Reference evaluation of a key of the (mutated) dictionary, by
recursion on dependency depth with explicit fuel.  `denoteF dict f k`
agrees with the value `resolve` computes for `k` for any sufficiently
large fuel (proved below); it exists only to state and prove
order-independence, it is not part of the source model. -/
def denoteF (dict : List (String × RawParam)) : ℕ → String → Option PFloat
  | 0, _ => none
  | fuel + 1, k =>
      match dict.lookup k with
      | some (.num x) => some x
      | some (.unitStr m) => some m
      | some (.sexpr e) =>
          (e.evalQ (fun s =>
            if s = k then none else (denoteF dict fuel s).bind PFloat.toQ)).map .fin
      | _ => none

/-- The dependency-edge relation of a graph: `relG g x y` holds when `x`
is a node and `y` appears in `x`'s dependency list. -/
def relG (g : List (String × List String)) (x y : String) : Prop :=
  x ∈ g.map Prod.fst ∧ y ∈ depsIn g x

/-- The graph contains a (directed) dependency cycle. -/
def Cyclic (g : List (String × List String)) : Prop :=
  ∃ a, Relation.TransGen (relG g) a a

/-- Well-formedness of the dependency graph `_build_dependency_graph`
returns: duplicate-free node keys, and every dependency list
duplicate-free, self-free and drawn from the node keys (established below
for every graph the builder emits). -/
def GraphWF (g : List (String × List String)) : Prop :=
  (g.map Prod.fst).Nodup ∧
  ∀ p ∈ g, p.2.Nodup ∧ p.1 ∉ p.2 ∧ ∀ d ∈ p.2, d ∈ g.map Prod.fst

/-- The loop invariant of Kahn's algorithm used in the proofs below:
emitted ++ queued nodes are duplicate-free graph nodes, `indeg` counts
each node's dependencies outside the emitted prefix, a node is emitted or
queued exactly when all its dependencies are emitted, and the emitted
prefix is topologically ordered. -/
structure KInv (g : List (String × List String)) (indeg : String → ℤ)
    (queue acc : List String) : Prop where
  nd : (acc ++ queue).Nodup
  sub : ∀ x ∈ acc ++ queue, x ∈ g.map Prod.fst
  deg : ∀ x ∈ g.map Prod.fst,
    indeg x = (((depsIn g x).filter (fun d => decide (d ∉ acc))).length : ℤ)
  mem : ∀ x ∈ g.map Prod.fst,
    (x ∈ acc ∨ x ∈ queue) ↔ ∀ d ∈ depsIn g x, d ∈ acc
  topo : acc.Pairwise (fun v w => w ∉ depsIn g v)

/-! ## NetlistGraph (`core/topology/netlist_graph.py`) -/

/-- Lexicographic comparison of character lists (by code point), the
order `list.sort()` uses on Python strings.  Defined structurally because
core's `String` order does not kernel-reduce. -/
def charListLe : List Char → List Char → Bool
  | [], _ => true
  | _ :: _, [] => false
  | a :: as, b :: bs => if a < b then true else if b < a then false else charListLe as bs

/-- Lexicographic order on strings (as used by `sorted`/`list.sort`). -/
def strLe (a b : String) : Prop := charListLe a.toList b.toList = true

instance : DecidableRel strLe := fun a b =>
  inferInstanceAs (Decidable (charListLe a.toList b.toList = true))

/-- `NetlistGraph.node_index(ground_net)`, lines 90-107, computed from an
enumeration `netsEnum` of the Python set `self._nets` (a duplicate-free
list in an arbitrary order, since CPython set iteration order is
unspecified).  With a ground net supplied, present in the set and truthy
(non-empty string), the ground is moved to the front of the enumeration
and nothing is sorted; otherwise the nets are sorted lexicographically.
The returned association list maps each net to its position. -/
def nodeIndexCode (netsEnum : List String) (ground : Option String) : List (String × ℕ) :=
  let nets :=
    match ground with
    | some gn =>
        if gn ≠ "" ∧ gn ∈ netsEnum then gn :: netsEnum.erase gn
        else netsEnum.insertionSort strLe
    | none => netsEnum.insertionSort strLe
  nets.enum.map (fun p => (p.2, p.1))

/-- The map the specification describes for a supplied, present ground
net: ground gets index 0 and the remaining nets get 1..N-1 in
lexicographically sorted order. -/
def nodeIndexSpec (netsEnum : List String) (gn : String) : List (String × ℕ) :=
  (gn :: (netsEnum.erase gn).insertionSort strLe).enum.map (fun p => (p.2, p.1))

/-! ## Factorization-cache keys (`core/stamping/_cache.py`) -/

/-- `data_checksum(M)`: XOR-reduction of the data array viewed as 64-bit
words (each complex128 entry contributes the two words of its real and
imaginary bit patterns; the word list is the model's input).  Values are
naturals below `2^64`; `Nat.xor` preserves that bound. -/
def dataChecksum (words : List ℕ) : ℕ := words.foldl Nat.xor 0

/-- An `LUEntry`: the sparsity fingerprint is modelled by the hashed
payload itself (`indices`, `indptr`, `shape`) rather than its blake2b
digest, i.e. the hash is taken injective. -/
structure LUEntryM where
  patternKey : List ℕ × List ℕ × (ℕ × ℕ)
  dataKey : ℕ
deriving DecidableEq, Repr

/-- The cache decision of `build_global_Y` (matrix_builder.py lines
241-247): with `entry` the cache content for the point's sparsity
fingerprint, the cached solver is reused iff an entry exists and its data
checksum matches; otherwise a new factorization is computed and stored. -/
def luReuse (entry : Option LUEntryM) (datKey : ℕ) : Bool :=
  match entry with
  | none => false
  | some e => e.dataKey = datKey

/-! ## Complex numbers with rational parts (`numpy.complex128` model) -/

/-- A complex number with exact rational real and imaginary parts,
modelling a `numpy.complex128` value (rounding is not modelled). -/
@[ext]
structure CQ where
  re : ℚ
  im : ℚ
deriving DecidableEq, Repr

/-- Shorthand constructor. -/
def cq (a b : ℚ) : CQ := ⟨a, b⟩

instance : Zero CQ := ⟨⟨0, 0⟩⟩
instance : One CQ := ⟨⟨1, 0⟩⟩
instance : Add CQ := ⟨fun a b => ⟨a.re + b.re, a.im + b.im⟩⟩
instance : Neg CQ := ⟨fun a => ⟨-a.re, -a.im⟩⟩
instance : Sub CQ := ⟨fun a b => ⟨a.re - b.re, a.im - b.im⟩⟩
instance : Mul CQ := ⟨fun a b => ⟨a.re * b.re - a.im * b.im, a.re * b.im + a.im * b.re⟩⟩

/-- Squared modulus. -/
def CQ.normSq (a : CQ) : ℚ := a.re ^ 2 + a.im ^ 2

instance : Inv CQ := ⟨fun a => ⟨a.re / a.normSq, -a.im / a.normSq⟩⟩
instance : Div CQ := ⟨fun a b => a * b⁻¹⟩

@[simp] theorem CQ.zero_re : (0 : CQ).re = 0 := rfl
@[simp] theorem CQ.zero_im : (0 : CQ).im = 0 := rfl
@[simp] theorem CQ.one_re : (1 : CQ).re = 1 := rfl
@[simp] theorem CQ.one_im : (1 : CQ).im = 0 := rfl
@[simp] theorem CQ.add_re (a b : CQ) : (a + b).re = a.re + b.re := rfl
@[simp] theorem CQ.add_im (a b : CQ) : (a + b).im = a.im + b.im := rfl
@[simp] theorem CQ.neg_re (a : CQ) : (-a).re = -a.re := rfl
@[simp] theorem CQ.neg_im (a : CQ) : (-a).im = -a.im := rfl
@[simp] theorem CQ.sub_re (a b : CQ) : (a - b).re = a.re - b.re := rfl
@[simp] theorem CQ.sub_im (a b : CQ) : (a - b).im = a.im - b.im := rfl
@[simp] theorem CQ.mul_re (a b : CQ) : (a * b).re = a.re * b.re - a.im * b.im := rfl
@[simp] theorem CQ.mul_im (a b : CQ) : (a * b).im = a.re * b.im + a.im * b.re := rfl
@[simp] theorem CQ.inv_re (a : CQ) : (a⁻¹).re = a.re / a.normSq := rfl
@[simp] theorem CQ.inv_im (a : CQ) : (a⁻¹).im = -a.im / a.normSq := rfl

instance : CommRing CQ where
  add_assoc a b c := by ext <;> simp <;> ring
  zero_add a := by ext <;> simp
  add_zero a := by ext <;> simp
  add_comm a b := by ext <;> simp <;> ring
  left_distrib a b c := by ext <;> simp <;> ring
  right_distrib a b c := by ext <;> simp <;> ring
  zero_mul a := by ext <;> simp
  mul_zero a := by ext <;> simp
  mul_assoc a b c := by ext <;> simp <;> ring
  one_mul a := by ext <;> simp
  mul_one a := by ext <;> simp
  mul_comm a b := by ext <;> simp <;> ring
  sub_eq_add_neg a b := by ext <;> simp <;> ring
  neg_add_cancel a := by ext <;> simp
  nsmul := nsmulRec
  zsmul := zsmulRec

theorem CQ.normSq_ne_zero {a : CQ} (h : a ≠ 0) : a.normSq ≠ 0 := by
  have : a.re ≠ 0 ∨ a.im ≠ 0 := by
    by_contra hc
    push_neg at hc
    exact h (CQ.ext hc.1 hc.2)
  have hpos : 0 < a.normSq := by
    rcases this with h1 | h1
    · have h0 : 0 < a.re ^ 2 := by positivity
      have h2 : (0 : ℚ) ≤ a.im ^ 2 := sq_nonneg _
      unfold CQ.normSq; linarith
    · have h0 : 0 < a.im ^ 2 := by positivity
      have h2 : (0 : ℚ) ≤ a.re ^ 2 := sq_nonneg _
      unfold CQ.normSq; linarith
  exact ne_of_gt hpos

instance : Field CQ where
  inv := Inv.inv
  div := Div.div
  div_eq_mul_inv a b := rfl
  exists_pair_ne := ⟨0, 1, by intro h; have := congrArg CQ.re h; simp at this⟩
  mul_inv_cancel a ha := by
    have hn := CQ.normSq_ne_zero ha
    have hs : a.re * a.re + a.im * a.im = a.normSq := by rw [CQ.normSq]; ring
    ext
    · show a.re * (a.re / a.normSq) - a.im * (-a.im / a.normSq) = 1
      field_simp
      linarith [hs]
    · show a.re * (-a.im / a.normSq) + a.im * (a.re / a.normSq) = 0
      field_simp
      ring
  inv_zero := by
    ext <;> simp [CQ.normSq]
  nnqsmul := _
  qsmul := _

/-! ## Matrix conversions (`utils/matrix.py`) -/

/-- Computable matrix inverse over `CQ` (the adjugate formula); equals
Mathlib's `Matrix.inv` (proved below), which in turn is the exact-field
value of every branch of numpy's `inv`/Cholesky-inverse on an invertible
matrix. -/
def cqInv {n : ℕ} (A : Matrix (Fin n) (Fin n) CQ) : Matrix (Fin n) (Fin n) CQ :=
  (A.det)⁻¹ • A.adjugate

/-- `robust_inv(matrix, reg)` (utils/matrix.py lines 7-23) in exact
arithmetic.  The source tries a Cholesky-based inverse for (numerically)
Hermitian matrices, `np.linalg.inv` otherwise, and falls back to
`np.linalg.pinv` on `LinAlgError`; every branch adds `reg * I` first, and
on an invertible `matrix + reg*I` all three branches compute its exact
inverse, which is the value modelled here.  (The singular case, where the
source returns a Moore-Penrose pseudoinverse, is outside every theorem
below; Mathlib's adjugate inverse returns the zero matrix there.) -/
def robust_inv {n : ℕ} (M : Matrix (Fin n) (Fin n) CQ) (reg : ℚ) :
    Matrix (Fin n) (Fin n) CQ :=
  cqInv (M + cq reg 0 • (1 : Matrix (Fin n) (Fin n) CQ))

/-- Floor square root of a natural number (a kernel-reducible
implementation). -/
def natSqrtL (n : ℕ) : ℕ :=
  ((List.range (n + 1)).filter (fun k => k * k ≤ n)).foldr max 0

/-- `np.sqrt` on the (rational-valued) real parts appearing in the
conversions: exact when the argument is a perfect rational square, which
is what the theorems below require through explicit `(ratSqrt x)^2 = x`
hypotheses (floating-point square roots are not modelled further). -/
def ratSqrt (q : ℚ) : ℚ := (natSqrtL q.num.toNat : ℚ) / (natSqrtL q.den : ℚ)

/-- Default `reg` of `y_to_s` (and of the `tol` the sweep passes): 1e-9. -/
def defaultReg : ℚ := 1 / 10 ^ 9

/-- The condition-number threshold `1e6` of `y_to_s`. -/
def condThreshold : ℚ := 1000000

/-- `y_to_s(Y, Z0, reg)` (utils/matrix.py lines 98-146) in exact
arithmetic.  `condM` is the value `np.linalg.cond(Y0 + Y)` returns (the
2-norm condition number is not algebraic, so the model takes it as an
input).  Mirrors the source: `Y0 = diag(1/Re(Z0))`,
`D = diag(1/sqrt(Re(Z0)))`, `D_inv = diag(sqrt(Re(Z0)))`; when
`condM > 1e6` the regularization is raised to
`max(reg, condM * 1e-12)`; `robust_inv` then adds `reg * I`
unconditionally; the result is `D @ ((Y0 - Y) @ M_inv) @ D_inv`. -/
def y_to_s {n : ℕ} (Y : Matrix (Fin n) (Fin n) CQ) (Z0 : Fin n → CQ)
    (reg condM : ℚ) : Matrix (Fin n) (Fin n) CQ :=
  let Z0re : Fin n → ℚ := fun i => (Z0 i).re
  let Y0 : Matrix (Fin n) (Fin n) CQ := Matrix.diagonal (fun i => cq (1 / Z0re i) 0)
  let D : Matrix (Fin n) (Fin n) CQ := Matrix.diagonal (fun i => cq (1 / ratSqrt (Z0re i)) 0)
  let Dinv : Matrix (Fin n) (Fin n) CQ := Matrix.diagonal (fun i => cq (ratSqrt (Z0re i)) 0)
  let M := Y0 + Y
  let reg2 := if condThreshold < condM then max reg (condM * (1 / 10 ^ 12)) else reg
  D * ((Y0 - Y) * robust_inv M reg2) * Dinv

/-- The conversion the specification describes:
`D · ((Y₀ − Y) · (Y₀ + Y)⁻¹) · D⁻¹` with `D = diag(√Re(Z₀))`,
`Y₀ = diag(1/Z₀_vec)` (complex), adding `reg·I` (spec default 1e-12) to
`Y₀ + Y` only when the condition number exceeds a threshold `θ`. -/
def spec_y_to_s {n : ℕ} (Y : Matrix (Fin n) (Fin n) CQ) (Z0 : Fin n → CQ)
    (reg condM θ : ℚ) : Matrix (Fin n) (Fin n) CQ :=
  let D : Matrix (Fin n) (Fin n) CQ := Matrix.diagonal (fun i => cq (ratSqrt (Z0 i).re) 0)
  let Dinv : Matrix (Fin n) (Fin n) CQ :=
    Matrix.diagonal (fun i => cq (1 / ratSqrt (Z0 i).re) 0)
  let Y0 : Matrix (Fin n) (Fin n) CQ := Matrix.diagonal (fun i => (Z0 i)⁻¹)
  let M := Y0 + Y + (if θ < condM then cq reg 0 • (1 : Matrix (Fin n) (Fin n) CQ) else 0)
  D * ((Y0 - Y) * cqInv M) * Dinv

/-! ## Per-point reduction (`_worker.evaluate_point`, `build_global_Y`) -/

/-- A square complex matrix of unspecified (runtime) size, as numpy
arrays have. -/
def SqMat : Type := (k : ℕ) × Matrix (Fin k) (Fin k) CQ

/-- `ext_idx = [node_index[s.net_name] for s in ext_specs if s.net_name in
node_index]` (matrix_builder.py line 229): external-port indices in spec
order, specs whose net is absent silently dropped. -/
def extIdx {n : ℕ} (nodeIdx : String → Option (Fin n)) (specs : List String) :
    List (Fin n) :=
  specs.filterMap nodeIdx

/-- `int_idx = list(set(range(dim)) - set(ext_idx))` (line 232): the
complement, enumerated in increasing order (CPython iterates small-int
sets in numeric order). -/
def intIdx {n : ℕ} (ext : List (Fin n)) : List (Fin n) :=
  (List.finRange n).filter (fun i => decide (i ∉ ext))

/-- `Y[np.ix_(rsel, csel)]`. -/
def submatrixL {n : ℕ} (Y : Matrix (Fin n) (Fin n) CQ)
    (rsel csel : List (Fin n)) : Matrix (Fin rsel.length) (Fin csel.length) CQ :=
  Matrix.of fun i j => Y (rsel.get i) (csel.get j)

/-- The external-port admittance `evaluate_point` passes to `y_to_s`
(_worker.py lines 59-65): with a YFactorCache present (internal indices
nonempty) the Schur complement `Y_ee − Y_ei · solve(Y_ii, Y_ie)`; with no
internals the **whole** reduced global `Y` (`Y_global.toarray()`).  The
cached sparse LU solve is modelled by exact inverse-multiplication. -/
def reduceToExt {n : ℕ} (Yred : Matrix (Fin n) (Fin n) CQ)
    (nodeIdx : String → Option (Fin n)) (specs : List String) : SqMat :=
  let ext := extIdx nodeIdx specs
  let int := intIdx ext
  if int.isEmpty then ⟨n, Yred⟩
  else
    let Yee := submatrixL Yred ext ext
    let Yei := submatrixL Yred ext int
    let Yie := submatrixL Yred int ext
    let Yii := submatrixL Yred int int
    ⟨ext.length, Yee - Yei * (cqInv Yii * Yie)⟩

/-- `y_to_s(Y_eff, Z0=Z0, reg=tol)` including the length check of
utils/matrix.py lines 121-122 (`Z0` arrives as the per-spec impedance
list; a length mismatch raises `ValueError`). -/
def yToSChecked (Ym : SqMat) (Z0 : List CQ) (reg condM : ℚ) : Except String SqMat :=
  if h : Z0.length = Ym.1 then
    .ok ⟨Ym.1, y_to_s Ym.2 (fun i => Z0.get (Fin.cast h.symm i)) reg condM⟩
  else
    .error "Impedance vector length does not match number of ports"

/-- A result record of one evaluation point: `{'frequency': …,
'parameters': …, 's_matrix': …}`. -/
structure PointRecord where
  frequency : ℚ
  parameters : List (String × ℚ)
  s_matrix : Option SqMat

/-- `dict.update` with a single key/value pair: overwrite in place if the
key exists, else append. -/
def dictUpdate1 {α : Type _} (d : List (String × α)) (kv : String × α) :
    List (String × α) :=
  if d.any (fun p => p.1 = kv.1) then
    d.map (fun p => if p.1 = kv.1 then (p.1, kv.2) else p)
  else d ++ [kv]

/-- `d.update(upd)` for an association-list model of Python dicts. -/
def mergeUpdate {α : Type _} (d upd : List (String × α)) : List (String × α) :=
  upd.foldl dictUpdate1 d

/-- `evaluate_point` (_worker.py lines 13-80), with the per-point numeric
assembly that depends on the component library abstracted as `assembleY`
(the reduced global `Y` built by `build_global_Y` from the resolved
context) and the reference-impedance models abstracted as `imp`.
The parameter merge `dict(raw_globals); update(comp.params);
update(local_overrides)`, the resolver call, the external-port reduction
and the `y_to_s` call follow the source; any raised error is caught and
returned as the per-sample error (`none` models the empty error string
of a successful point). -/
def evaluatePoint {n : ℕ} (assembleY : ℚ → List (String × PFloat) → Matrix (Fin n) (Fin n) CQ)
    (nodeIdx : String → Option (Fin n)) (specs : List String)
    (imp : String → ℚ → List (String × PFloat) → CQ) (reg condM : ℚ)
    (rawGlobals compLocals : List (String × RawParam))
    (freq : ℚ) (overrides : List (String × ℚ)) : PointRecord × Option String :=
  let exprs := mergeUpdate (mergeUpdate rawGlobals compLocals)
    (overrides.map (fun p => (p.1, RawParam.num (.fin p.2))))
  match resolve exprs with
  | .error _ =>
      ({ frequency := freq, parameters := overrides, s_matrix := none },
       some "Param resolution error")
  | .ok resolved =>
      let Yred := assembleY freq resolved
      let Z0 := specs.map (fun s => imp s freq resolved)
      match yToSChecked (reduceToExt Yred nodeIdx specs) Z0 reg condM with
      | .ok S =>
          ({ frequency := freq, parameters := overrides, s_matrix := some S }, none)
      | .error m =>
          ({ frequency := freq, parameters := overrides, s_matrix := none }, some m)

/-! ## Sweep driver (`MatrixBuilder.sweep`, matrix_builder.py 255-302) -/

/-- One entry of the sweep specification. -/
structure SweepEntry where
  param : String
  range : Option (ℚ × ℚ)
  points : Option ℕ
  scale : String
  values : Option (List ℚ)

/-- `np.linspace(a, b, pts)`: `pts` samples `a + i*(b-a)/(pts-1)`
(`pts = 1` yields `[a]`; rational division by zero is zero, matching). -/
def linspaceQ (a b : ℚ) (pts : ℕ) : List ℚ :=
  (List.range pts).map (fun i => a + (b - a) * i / ((pts : ℚ) - 1))

/-- The pieces of numpy the log-scaled frequency list needs.  `log10` and
`logspace` are transcendental, so they enter the model as an opaque
bundle constrained by the documented guarantee that `np.logspace(_, _,
pts)` returns exactly `pts` samples. -/
structure NumpyLog where
  log10 : ℚ → ℚ
  logspace : ℚ → ℚ → ℕ → List ℚ
  length_logspace : ∀ a b n, (logspace a b n).length = n

/-- The frequency samples of the `f` entry (matrix_builder.py line 273). -/
def freqSamples (np : NumpyLog) (scale : String) (a b : ℚ) (pts : ℕ) : List ℚ :=
  if scale = "log" then np.logspace (np.log10 a) (np.log10 b) pts
  else linspaceQ a b pts

/-- The `for entry in sweep_config.sweep` loop (lines 268-277): the
`f` entry (re)sets the frequency list, other entries set
`param_sweeps[entry.param] = entry.values`; missing `range`/`points`/
`values` raise `RFSimError`. -/
def parseSweepCfg (np : NumpyLog) (cfg : List SweepEntry) :
    Except String (List ℚ × List (String × List ℚ)) :=
  cfg.foldlM
    (fun (st : List ℚ × List (String × List ℚ)) e =>
      if e.param = "f" then
        match e.range, e.points with
        | some (a, b), some pts => .ok (freqSamples np e.scale a b pts, st.2)
        | _, _ => .error "Frequency sweep entry requires range and points."
      else
        match e.values with
        | some vs => .ok (st.1, dictUpdate1 st.2 (e.param, vs))
        | none => .error "Parameter sweep requires values.")
    ([], [])

/-- `itertools.product(*lists)`: all selections, first list slowest. -/
def pyProduct {α : Type _} : List (List α) → List (List α)
  | [] => [[]]
  | l :: ls => l.flatMap (fun x => (pyProduct ls).map (fun rest => x :: rest))

/-- `MatrixBuilder.sweep`: expand the configuration, build one task per
`(freq, value-combination)` pair, map the worker over the tasks, collect
every returned entry and the non-empty errors.  The worker is
`evaluate_point` with the static package fixed; it is a parameter here so
the driver's accounting is stated for the worker the source uses. -/
def sweepModel (np : NumpyLog)
    (evalPt : ℚ → List (String × ℚ) → PointRecord × Option String)
    (cfg : List SweepEntry) : Except String (List PointRecord × List String) :=
  match parseSweepCfg np cfg with
  | .error e => .error e
  | .ok (freqList, paramSweeps) =>
      let keys := paramSweeps.map Prod.fst
      let combos := pyProduct (paramSweeps.map Prod.snd)
      let tasks := freqList.flatMap (fun f => combos.map (fun vs => (f, keys.zip vs)))
      let results := tasks.map (fun t => evalPt t.1 t.2)
      .ok (results.map Prod.fst, results.filterMap Prod.snd)

/-- Entry `(i, j)` of a runtime-sized square matrix, `0` out of range
(lets sigma-packed matrices be compared entrywise without dependent
types). -/
def sqEntry (s : SqMat) (i j : ℕ) : CQ :=
  if h : i < s.1 ∧ j < s.1 then s.2 ⟨i, h.1⟩ ⟨j, h.2⟩ else 0

/-- The per-entry in-place overwrite `_build_dependency_graph` performs
on its input dictionary: unit strings become their parsed magnitude,
expression strings become the parsed expression object. -/
def mutateVal : RawParam → RawParam
  | .num x => .num x
  | .unitStr m => .num m
  | .exprStr e => .sexpr e
  | .badStr => .badStr
  | .sexpr e => .sexpr e
  | .other => .other

/-- Relation between an input entry and the same entry after
`_build_dependency_graph` ran: the key is unchanged and the value is
either untouched or replaced by its parsed form. -/
def mutationRel (e e' : String × RawParam) : Prop :=
  e.1 = e'.1 ∧ (e'.2 = e.2 ∨ e'.2 = mutateVal e.2)

/-- A node-index function for the C2 counterexample: nets `a`, `b` at
indices 0, 1. -/
def c2NodeIdx : String → Option (Fin 2) :=
  fun s => if s = "a" then some 0 else if s = "b" then some 1 else none

/-- The reduced global Y of the C2 counterexample. -/
def c2Y : Matrix (Fin 2) (Fin 2) CQ := !![cq 0 0, cq 1 0; cq 2 0, cq 3 0]

/-! # Theorems

## C5 — factorization-cache data checksum -/

theorem dataChecksum_perm {w w' : List ℕ} (h : w.Perm w') :
    dataChecksum w = dataChecksum w' := by
  unfold dataChecksum
  haveI : RightCommutative Nat.xor := ⟨fun b x y => by
    show (b ^^^ x) ^^^ y = (b ^^^ y) ^^^ x
    rw [Nat.xor_assoc, Nat.xor_assoc, Nat.xor_comm x y]⟩
  exact h.foldl_eq 0

/-- C5 (amended): with a matching sparsity fingerprint the cached LU
solver is reused exactly when the XOR data checksums agree; unchanged
data always hits the cache, and the checksum is invariant under
permutations of the data words (so matching checksums do not imply
unchanged data). -/
theorem lu_reuse_characterization :
    (∀ (pk : List ℕ × List ℕ × (ℕ × ℕ)) (w : List ℕ),
      luReuse (some ⟨pk, dataChecksum w⟩) (dataChecksum w) = true) ∧
    (∀ w w' : List ℕ, w.Perm w' → dataChecksum w = dataChecksum w') ∧
    (∀ (e : LUEntryM) (dk : ℕ), luReuse (some e) dk = true ↔ e.dataKey = dk) ∧
    (∀ dk : ℕ, luReuse none dk = false) := by
  refine ⟨fun pk w => ?_, fun w w' h => dataChecksum_perm h, fun e dk => ?_, fun dk => rfl⟩
  · simp [luReuse]
  · simp [luReuse]

/-- Witness for C5 (amended) at the concrete swapped data words. -/
theorem lu_reuse_characterization_witness :
    dataChecksum [1, 2] = dataChecksum [2, 1] ∧ luReuse none 5 = false :=
  ⟨lu_reuse_characterization.2.1 [1, 2] [2, 1] (by decide),
   lu_reuse_characterization.2.2.2 5⟩

/-- C5 counterexample: the data arrays `[1, 2, 3, 4]` and `[3, 4, 1, 2]`
(two complex entries swapped, every word changed) have equal XOR
checksums, so the cached solver is reused although numeric values
changed — refuting "the checksum changes whenever any numeric value
changes". -/
theorem checksum_collision_counterexample :
    dataChecksum [1, 2, 3, 4] = dataChecksum [3, 4, 1, 2] ∧
    ([1, 2, 3, 4] : List ℕ) ≠ [3, 4, 1, 2] ∧
    luReuse (some ⟨([0, 1], [0, 2], (2, 2)), dataChecksum [1, 2, 3, 4]⟩)
      (dataChecksum [3, 4, 1, 2]) = true := by decide

/-! ## C1 — `node_index` ordering -/

theorem lookup_enumFromMap (l : List String) (x : String) (hx : x ∈ l) :
    ∀ n : ℕ, ((l.enumFrom n).map (fun p => (p.2, p.1))).lookup x = some (n + l.indexOf x) := by
  induction l with
  | nil => cases hx
  | cons a t ih =>
      intro n
      by_cases hax : x = a
      · subst hax
        simp [List.enumFrom, List.lookup, List.indexOf_cons_self]
      · have hxt : x ∈ t := by
          rcases List.mem_cons.mp hx with h | h
          · exact absurd h hax
          · exact h
        have hbeq : (x == a) = false := beq_false_of_ne hax
        simp only [List.enumFrom, List.map_cons, List.lookup, hbeq]
        rw [ih hxt (n + 1)]
        congr 1
        rw [List.indexOf_cons_ne _ (by exact fun h => hax h.symm)]
        omega

/-- C1 counterexample: on the set enumeration `["b", "a", "g"]` (an
admissible iteration order of the Python set `{"a", "b", "g"}`) with
ground net `"g"`, `node_index` returns `g↦0, b↦1, a↦2` — the remaining
nets keep enumeration order — while the claimed map sorts them to
`g↦0, a↦1, b↦2`. -/
theorem node_index_sorted_counterexample :
    nodeIndexCode ["b", "a", "g"] (some "g") ≠ nodeIndexSpec ["b", "a", "g"] "g" := by decide

/-- C1 (amended): when `ground_net` is supplied, present and non-empty,
`node_index` assigns the ground net index 0 and assigns the remaining
nets indices 1..N-1 in the **set-enumeration order with the ground net
removed** (not sorted); the index range is the contiguous `0..N-1`. -/
theorem node_index_ground_enum_order (netsEnum : List String) (gn : String)
    (hg : gn ∈ netsEnum) (hne : gn ≠ "") :
    (nodeIndexCode netsEnum (some gn)).lookup gn = some 0 ∧
    (∀ x ∈ netsEnum, x ≠ gn →
      (nodeIndexCode netsEnum (some gn)).lookup x =
        some ((netsEnum.erase gn).indexOf x + 1)) ∧
    (nodeIndexCode netsEnum (some gn)).map Prod.snd = List.range netsEnum.length := by
  have hcode : nodeIndexCode netsEnum (some gn) =
      ((gn :: netsEnum.erase gn).enumFrom 0).map (fun p => (p.2, p.1)) := by
    show (let nets := if gn ≠ "" ∧ gn ∈ netsEnum then gn :: netsEnum.erase gn
        else List.insertionSort strLe netsEnum
      List.map (fun p => (p.2, p.1)) nets.enum) = _
    rw [if_pos ⟨hne, hg⟩]
    rfl
  refine ⟨?_, ?_, ?_⟩
  · rw [hcode, lookup_enumFromMap _ _ (List.mem_cons_self _ _) 0]
    simp [List.indexOf_cons_self]
  · intro x hx hxg
    have hxe : x ∈ gn :: netsEnum.erase gn :=
      List.mem_cons.mpr (Or.inr (List.mem_erase_of_ne hxg |>.mpr hx))
    rw [hcode, lookup_enumFromMap _ _ hxe 0]
    rw [List.indexOf_cons_ne _ (fun h => hxg h.symm)]
    simp [Nat.add_comm]
  · rw [hcode]
    have h1 : (((gn :: netsEnum.erase gn).enumFrom 0).map (fun p => (p.2, p.1))).map Prod.snd
        = ((gn :: netsEnum.erase gn).enumFrom 0).map Prod.fst := by
      rw [List.map_map]; rfl
    rw [h1]
    have h2 : ((gn :: netsEnum.erase gn).enumFrom 0).map Prod.fst =
        List.range (gn :: netsEnum.erase gn).length := by
      have := List.enum_map_fst (gn :: netsEnum.erase gn)
      simpa [List.enum] using this
    rw [h2]
    congr 1
    have := List.length_erase_of_mem hg
    have hpos : 0 < netsEnum.length := List.length_pos_of_mem hg
    simp [this]
    omega

/-- Witness for C1 (amended) on the concrete enumeration. -/
theorem node_index_ground_enum_order_witness :
    (nodeIndexCode ["b", "a", "g"] (some "g")).lookup "g" = some 0 ∧
    (nodeIndexCode ["b", "a", "g"] (some "g")).lookup "a" = some 2 := by
  have h := node_index_ground_enum_order ["b", "a", "g"] "g" (by decide) (by decide)
  refine ⟨h.1, ?_⟩
  rw [h.2.1 "a" (by decide) (by decide)]
  decide

/-! ## C10 — `resolve` mutates its input mapping -/

theorem buildStep_ok_val {keys : List String} {k : String} {v v' : RawParam}
    {ds : List String} (h : buildStep keys (k, v) = .ok (v', ds)) :
    v' = v ∨ v' = mutateVal v := by
  cases v with
  | num x => simp [buildStep] at h; exact Or.inl h.1.symm
  | unitStr m => simp [buildStep] at h; exact Or.inr (by simp [mutateVal, ← h.1])
  | exprStr e => simp [buildStep] at h; exact Or.inr (by simp [mutateVal, ← h.1])
  | badStr => simp [buildStep] at h
  | sexpr e => simp [buildStep] at h; exact Or.inl h.1.symm
  | other => simp [buildStep] at h

theorem buildDG_state_rel (keys : List String) (d : List (String × RawParam)) :
    (∀ er st, buildDG keys d = .error (er, st) → List.Forall₂ mutationRel d st) ∧
    (∀ d2 g, buildDG keys d = .ok (d2, g) → List.Forall₂ mutationRel d d2) := by
  induction d with
  | nil =>
      constructor
      · intro er st h; simp [buildDG] at h
      · intro d2 g h
        simp [buildDG] at h
        obtain ⟨rfl, rfl⟩ := h
        exact List.Forall₂.nil
  | cons e rest ih =>
      obtain ⟨k, v⟩ := e
      constructor
      · intro er st h
        unfold buildDG at h
        cases hs : buildStep keys (k, v) with
        | error e0 =>
            rw [hs] at h
            simp at h
            rw [← h.2]
            exact List.Forall₂.cons ⟨rfl, Or.inl rfl⟩ (List.forall₂_same.mpr
              (fun x _ => ⟨rfl, Or.inl rfl⟩))
        | ok pr =>
            obtain ⟨v', ds⟩ := pr
            rw [hs] at h
            cases hr : buildDG keys rest with
            | error pr2 =>
                obtain ⟨er2, st2⟩ := pr2
                rw [hr] at h
                simp at h
                rw [← h.2]
                exact List.Forall₂.cons ⟨rfl, buildStep_ok_val hs⟩ (ih.1 er2 st2 hr)
            | ok pr2 =>
                obtain ⟨rest', g'⟩ := pr2
                rw [hr] at h
                simp at h
      · intro d2 g h
        unfold buildDG at h
        cases hs : buildStep keys (k, v) with
        | error e0 => rw [hs] at h; simp at h
        | ok pr =>
            obtain ⟨v', ds⟩ := pr
            rw [hs] at h
            cases hr : buildDG keys rest with
            | error pr2 =>
                rw [hr] at h
                simp at h
            | ok pr2 =>
                obtain ⟨rest', g'⟩ := pr2
                rw [hr] at h
                simp at h
                rw [← h.1]
                exact List.Forall₂.cons ⟨rfl, buildStep_ok_val hs⟩ (ih.2 rest' g' hr)

theorem forall₂_mutation_keys {d d' : List (String × RawParam)}
    (h : List.Forall₂ mutationRel d d') : d.map Prod.fst = d'.map Prod.fst := by
  induction h with
  | nil => rfl
  | cons hr _ ih => simp [ih, hr.1]

/-- C10 (amended): `resolve` mutates the mapping it is passed — whether
it returns or raises, the final state of the caller's dictionary keeps
exactly the same keys in the same order, but each value is either
untouched or overwritten in place by its parsed form (unit strings by
their magnitude, expression strings by the parsed expression). -/
theorem resolve_state_shape (d : List (String × RawParam)) :
    (resolveRun d).2.map Prod.fst = d.map Prod.fst ∧
    List.Forall₂ mutationRel d (resolveRun d).2 := by
  have hrel : List.Forall₂ mutationRel d (resolveRun d).2 := by
    unfold resolveRun
    cases hb : buildDepGraph d with
    | error pr =>
        obtain ⟨er, st⟩ := pr
        exact (buildDG_state_rel (keysOf d) d).1 er st hb
    | ok pr =>
        obtain ⟨d2, g⟩ := pr
        have := (buildDG_state_rel (keysOf d) d).2 d2 g hb
        cases hk : kahn g with
        | error e => simpa [hk] using this
        | ok order => simpa [hk] using this
  exact ⟨(forall₂_mutation_keys hrel).symm, hrel⟩

/-- C10 counterexample: resolving `{"a": "1pF"}` (the unit string is
modelled post-parse by its magnitude `1e-12`) succeeds but leaves the
caller's mapping holding the parsed float instead of the original
unresolved value. -/
theorem resolve_input_mutation_counterexample :
    (resolveRun [("a", RawParam.unitStr (.fin (1 / 1000000000000)))]).2 ≠
      [("a", RawParam.unitStr (.fin (1 / 1000000000000)))] ∧
    (resolve [("a", RawParam.unitStr (.fin (1 / 1000000000000)))]).isOk = true := by decide

/-! ## C7 — no finiteness check in `resolve` -/

theorem buildDG_nums (keys : List String) (d : List (String × PFloat)) :
    buildDG keys (d.map (fun p => (p.1, RawParam.num p.2))) =
      .ok (d.map (fun p => (p.1, RawParam.num p.2)), d.map (fun p => (p.1, []))) := by
  induction d with
  | nil => rfl
  | cons p rest ih => simp [buildDG, buildStep, ih]

theorem revMap_all_nil {g : List (String × List String)}
    (h : ∀ p ∈ g, p.2 = ([] : List String)) (n : String) : revMap g n = [] := by
  unfold revMap
  rw [List.filter_eq_nil_iff.mpr, List.map_nil]
  intro p hp
  simp [h p hp]

theorem kahnLoop_no_edges {g : List (String × List String)}
    (h : ∀ p ∈ g, p.2 = ([] : List String)) :
    ∀ (fuel : ℕ) (indeg : String → ℤ) (q acc : List String), q.length ≤ fuel →
      kahnLoop g fuel indeg q acc = acc ++ q := by
  intro fuel
  induction fuel with
  | zero =>
      intro indeg q acc hq
      have : q = [] := List.length_eq_zero.mp (Nat.le_zero.mp hq)
      simp [kahnLoop, this]
  | succ f ih =>
      intro indeg q acc hq
      cases q with
      | nil => simp [kahnLoop]
      | cons n rest =>
          have hrw : kahnLoop g (f + 1) indeg (n :: rest) acc =
              kahnLoop g f (relax (indeg, rest) (revMap g n)).1
                (relax (indeg, rest) (revMap g n)).2 (acc ++ [n]) := rfl
          rw [hrw, revMap_all_nil h n]
          show kahnLoop g f indeg rest (acc ++ [n]) = acc ++ n :: rest
          rw [ih indeg rest (acc ++ [n]) (by simpa using Nat.succ_le_succ_iff.mp hq)]
          simp

theorem kahn_no_edges {g : List (String × List String)}
    (h : ∀ p ∈ g, p.2 = ([] : List String)) :
    kahn g = .ok (g.map Prod.fst) := by
  have hq : (g.filter (fun p => p.2.isEmpty)).map Prod.fst = g.map Prod.fst := by
    rw [List.filter_eq_self.mpr]
    intro p hp
    simp [h p hp]
  have hloop := kahnLoop_no_edges h
    (g.length + (g.map (fun p => p.2.length)).sum + 1)
    (fun x => (((g.lookup x).getD []).length : ℤ))
    ((g.filter (fun p => p.2.isEmpty)).map Prod.fst) []
    (by
      rw [hq]
      simp only [List.length_map]
      omega)
  rw [hq] at hloop
  simp only [kahn, hq, hloop, List.nil_append]
  rw [if_pos (by simp)]

theorem lookup_map_num (d : List (String × PFloat)) (k : String) :
    (d.map (fun p => (p.1, RawParam.num p.2))).lookup k =
      (d.lookup k).map RawParam.num := by
  induction d with
  | nil => rfl
  | cons p rest ih =>
      by_cases hk : k = p.1
      · simp [List.lookup, hk]
      · have : (k == p.1) = false := beq_false_of_ne hk
        simp [List.lookup, this, ih]

theorem nodup_lookup_mem {β : Type _} {d : List (String × β)}
    (hnd : (d.map Prod.fst).Nodup) {p : String × β} (hp : p ∈ d) :
    d.lookup p.1 = some p.2 := by
  induction d with
  | nil => cases hp
  | cons q rest ih =>
      rcases List.mem_cons.mp hp with rfl | hp'
      · simp [List.lookup]
      · have hq : q.1 ∉ rest.map Prod.fst := (List.nodup_cons.mp hnd).1
        have hne : p.1 ≠ q.1 := by
          intro he
          exact hq (he ▸ List.mem_map_of_mem Prod.fst hp')
        have : (p.1 == q.1) = false := beq_false_of_ne hne
        simp [List.lookup, this]
        exact ih (List.nodup_cons.mp hnd).2 hp'

theorem resolveLoop_nums (dict : List (String × RawParam)) (ks : List (String × PFloat)) :
    ∀ acc, (∀ p ∈ ks, dict.lookup p.1 = some (RawParam.num p.2)) →
      resolveLoop dict (ks.map Prod.fst) acc = .ok (acc ++ ks) := by
  induction ks with
  | nil => intro acc _; simp [resolveLoop]
  | cons p rest ih =>
      intro acc h
      have hp := h p (List.mem_cons_self _ _)
      have he : resolveEntry dict acc p.1 = Except.ok p.2 := by
        unfold resolveEntry; rw [hp]
      simp only [List.map_cons, resolveLoop, he]
      rw [ih (acc ++ [(p.1, p.2)]) (fun q hq => h q (List.mem_cons_of_mem _ hq))]
      simp

/-- C7 (amended): `resolve` applies no finiteness check.  A mapping of
already-numeric bindings resolves to exactly those values, finite or not
(`inf`/`nan` literals and unit magnitudes pass straight through to the
returned map); only symbolic evaluation failures raise. -/
theorem resolve_numeric_passthrough (d : List (String × PFloat))
    (hnd : (d.map Prod.fst).Nodup) :
    resolve (d.map (fun p => (p.1, RawParam.num p.2))) = .ok d := by
  have hb : buildDepGraph (d.map (fun p => (p.1, RawParam.num p.2))) =
      .ok (d.map (fun p => (p.1, RawParam.num p.2)), d.map (fun p => (p.1, ([] : List String)))) :=
    buildDG_nums _ d
  have hk : kahn (d.map (fun p => (p.1, ([] : List String)))) =
      .ok ((d.map (fun p => (p.1, ([] : List String)))).map Prod.fst) :=
    kahn_no_edges (by intro p hp; obtain ⟨q, _, rfl⟩ := List.mem_map.mp hp; rfl)
  have hfst : (d.map (fun p => (p.1, ([] : List String)))).map Prod.fst = d.map Prod.fst := by
    simp
  have hloop := resolveLoop_nums (d.map (fun p => (p.1, RawParam.num p.2))) d []
    (fun p hp => by rw [lookup_map_num, nodup_lookup_mem hnd hp]; rfl)
  simp only [resolve, resolveRun, hb, hk, hfst]
  simpa using hloop

/-- Witness for C7 (amended): a mapping containing the literal `inf`
resolves successfully and returns it. -/
theorem resolve_numeric_passthrough_witness :
    resolve [("a", RawParam.num PFloat.inf), ("b", RawParam.num (PFloat.fin 2))] =
      .ok [("a", PFloat.inf), ("b", PFloat.fin 2)] :=
  resolve_numeric_passthrough [("a", PFloat.inf), ("b", PFloat.fin 2)] (by decide)

/-- C7 counterexample: `resolve({"a": float("inf")})` returns
`{"a": inf}` — a non-finite value in the output map, with no
`ParameterError` raised. -/
theorem resolve_nonfinite_counterexample :
    resolve [("a", RawParam.num PFloat.inf)] = .ok [("a", PFloat.inf)] ∧
    PFloat.inf.isFinite = false := by decide

/-! ## C2 — empty internal partition passes the whole reduced Y -/

/-- C2 counterexample: two external ports on nets `b`, `a` (spec order
`["b", "a"]`, node indices `a↦0, b↦1`), no internal nodes.  The code
passes the whole reduced `Y` in node-index order, which differs from the
claimed `Y_ee` (the submatrix in external-port-spec order, here the
permuted matrix): entry (0,0) is `Y[0,0] = 0` versus `Y[1,1] = 3`. -/
theorem reduce_empty_internal_counterexample :
    (intIdx (extIdx c2NodeIdx ["b", "a"])).isEmpty = true ∧
    reduceToExt c2Y c2NodeIdx ["b", "a"] ≠
      ⟨(extIdx c2NodeIdx ["b", "a"]).length,
       submatrixL c2Y (extIdx c2NodeIdx ["b", "a"]) (extIdx c2NodeIdx ["b", "a"])⟩ := by
  refine ⟨by decide, fun h => ?_⟩
  have h0 := congrArg (fun s => sqEntry s 0 0) h
  revert h0
  decide

/-- C2 (amended): when the internal index partition is empty the
admittance passed to the Y-to-S conversion is the **whole reduced global
Y in node-index order** (in that case every reduced index is an external
index); it coincides with the spec-order `Y_ee` when the external-port
indices in spec order are exactly `0, 1, …, N-1`. -/
theorem reduce_empty_internal_passes_whole {n : ℕ} (Yred : Matrix (Fin n) (Fin n) CQ)
    (nodeIdx : String → Option (Fin n)) (specs : List String)
    (hint : intIdx (extIdx nodeIdx specs) = []) :
    reduceToExt Yred nodeIdx specs = ⟨n, Yred⟩ ∧
    (∀ i : Fin n, i ∈ extIdx nodeIdx specs) ∧
    (extIdx nodeIdx specs = List.finRange n →
      ∀ i j : ℕ,
        sqEntry ⟨(extIdx nodeIdx specs).length,
          submatrixL Yred (extIdx nodeIdx specs) (extIdx nodeIdx specs)⟩ i j =
        sqEntry ⟨n, Yred⟩ i j) := by
  refine ⟨?_, ?_, ?_⟩
  · simp only [reduceToExt, hint]
    rfl
  · intro i
    have := List.filter_eq_nil_iff.mp hint i (List.mem_finRange i)
    simpa using this
  · intro hext i j
    unfold sqEntry
    rw [hext]
    have hlen : (List.finRange n).length = n := List.length_finRange n
    by_cases hij : i < n ∧ j < n
    · have hij' : i < (List.finRange n).length ∧ j < (List.finRange n).length := by
        rw [hlen]; exact hij
      rw [dif_pos hij', dif_pos hij]
      show Yred ((List.finRange n).get ⟨i, hij'.1⟩) ((List.finRange n).get ⟨j, hij'.2⟩) = _
      rw [List.get_finRange, List.get_finRange]
    · have hij' : ¬(i < (List.finRange n).length ∧ j < (List.finRange n).length) := by
        rw [hlen]; exact hij
      rw [dif_neg hij', dif_neg hij]

/-- Witness for C2 (amended) on a one-net circuit. -/
theorem reduce_empty_internal_passes_whole_witness :
    reduceToExt !![cq 7 0] (fun s => if s = "a" then some (0 : Fin 1) else none) ["a"] =
      ⟨1, !![cq 7 0]⟩ :=
  (reduce_empty_internal_passes_whole !![cq 7 0]
    (fun s => if s = "a" then some (0 : Fin 1) else none) ["a"] (by decide)).1

end RFSim
namespace RFSim
attribute [local semireducible] Rat.add Rat.mul Rat.sub Rat.inv

theorem lookup_eq_none_of_not_mem {β : Type _} {d : List (String × β)} {x : String}
    (h : x ∉ d.map Prod.fst) : d.lookup x = none := by
  induction d with
  | nil => rfl
  | cons p rest ih =>
      have hx : x ≠ p.1 := fun he => h (by simp [he])
      have hb : (x == p.1) = false := beq_false_of_ne hx
      simp only [List.lookup, hb]
      exact ih (fun hm => h (by simp [hm]))

theorem depsIn_eq {g : List (String × List String)} (hnd : (g.map Prod.fst).Nodup)
    {p : String × List String} (hp : p ∈ g) : depsIn g p.1 = p.2 := by
  unfold depsIn
  rw [nodup_lookup_mem hnd hp]
  rfl

theorem depsIn_nil_of_not_mem {g : List (String × List String)} {x : String}
    (h : x ∉ g.map Prod.fst) : depsIn g x = [] := by
  unfold depsIn
  rw [lookup_eq_none_of_not_mem h]
  rfl

theorem mem_revMap {g : List (String × List String)} (hnd : (g.map Prod.fst).Nodup)
    {x d : String} : x ∈ revMap g d ↔ x ∈ g.map Prod.fst ∧ d ∈ depsIn g x := by
  unfold revMap
  constructor
  · intro hx
    obtain ⟨p, hp, rfl⟩ := List.mem_map.mp hx
    have hp' := List.mem_filter.mp hp
    refine ⟨List.mem_map_of_mem _ hp'.1, ?_⟩
    rw [depsIn_eq hnd hp'.1]
    exact of_decide_eq_true hp'.2
  · rintro ⟨hx, hd⟩
    obtain ⟨p, hp, rfl⟩ := List.mem_map.mp hx
    refine List.mem_map_of_mem _ (List.mem_filter.mpr ⟨hp, ?_⟩)
    rw [depsIn_eq hnd hp] at hd
    exact decide_eq_true hd

theorem revMap_nodup {g : List (String × List String)} (hnd : (g.map Prod.fst).Nodup)
    (d : String) : (revMap g d).Nodup := by
  unfold revMap
  exact ((List.filter_sublist g).map Prod.fst).nodup hnd

theorem relax_spec :
    ∀ (ds : List String), ds.Nodup → ∀ (indeg : String → ℤ) (q : List String),
      (relax (indeg, q) ds).1 = (fun x => if x ∈ ds then indeg x - 1 else indeg x) ∧
      (relax (indeg, q) ds).2 = q ++ ds.filter (fun d => decide (indeg d = 1)) := by
  intro ds
  induction ds with
  | nil =>
      intro _ indeg q
      constructor
      · funext x; simp [relax]
      · simp [relax]
  | cons d t ih =>
      intro hnd indeg q
      have hdt : d ∉ t := (List.nodup_cons.mp hnd).1
      have hnt : t.Nodup := (List.nodup_cons.mp hnd).2
      have hstep : relax (indeg, q) (d :: t) =
          relax ((fun x => if x = d then indeg d - 1 else indeg x),
            if indeg d - 1 = 0 then q ++ [d] else q) t := rfl
      obtain ⟨ih1, ih2⟩ := ih hnt
        (fun x => if x = d then indeg d - 1 else indeg x)
        (if indeg d - 1 = 0 then q ++ [d] else q)
      constructor
      · rw [hstep, ih1]
        funext x
        by_cases hxd : x = d
        · subst hxd
          simp [hdt]
        · by_cases hxt : x ∈ t <;> simp [hxd, hxt]
      · rw [hstep, ih2]
        have hfe : t.filter (fun x => decide ((if x = d then indeg d - 1 else indeg x) = 1)) =
            t.filter (fun x => decide (indeg x = 1)) := by
          apply List.filter_congr
          intro x hx
          have : x ≠ d := fun he => hdt (he ▸ hx)
          simp [this]
        rw [hfe]
        by_cases hd1 : indeg d = 1
        · have : indeg d - 1 = 0 := by omega
          simp [this, hd1, List.filter_cons]
        · have : ¬(indeg d - 1 = 0) := by omega
          simp [this, hd1, List.filter_cons]

end RFSim
namespace RFSim
attribute [local semireducible] Rat.add Rat.mul Rat.sub Rat.inv

theorem depsIn_nodup {g : List (String × List String)} (hwf : GraphWF g) (x : String) :
    (depsIn g x).Nodup := by
  by_cases hx : x ∈ g.map Prod.fst
  · obtain ⟨p, hp, rfl⟩ := List.mem_map.mp hx
    rw [depsIn_eq hwf.1 hp]
    exact (hwf.2 p hp).1
  · rw [depsIn_nil_of_not_mem hx]
    exact List.nodup_nil

theorem not_self_depsIn {g : List (String × List String)} (hwf : GraphWF g) (x : String) :
    x ∉ depsIn g x := by
  by_cases hx : x ∈ g.map Prod.fst
  · obtain ⟨p, hp, rfl⟩ := List.mem_map.mp hx
    rw [depsIn_eq hwf.1 hp]
    exact (hwf.2 p hp).2.1
  · rw [depsIn_nil_of_not_mem hx]
    exact List.not_mem_nil x

theorem depsIn_closed {g : List (String × List String)} (hwf : GraphWF g) {x d : String}
    (hd : d ∈ depsIn g x) : d ∈ g.map Prod.fst := by
  by_cases hx : x ∈ g.map Prod.fst
  · obtain ⟨p, hp, rfl⟩ := List.mem_map.mp hx
    rw [depsIn_eq hwf.1 hp] at hd
    exact (hwf.2 p hp).2.2 d hd
  · rw [depsIn_nil_of_not_mem hx] at hd
    cases hd

theorem KInv_step {g : List (String × List String)} (hwf : GraphWF g)
    {indeg : String → ℤ} {acc : List String} {n : String} {rest : List String}
    (hI : KInv g indeg (n :: rest) acc) :
    KInv g (relax (indeg, rest) (revMap g n)).1 (relax (indeg, rest) (revMap g n)).2
      (acc ++ [n]) := by
  obtain ⟨hrel1, hrel2⟩ := relax_spec (revMap g n) (revMap_nodup hwf.1 n) indeg rest
  have hnK : n ∈ g.map Prod.fst := hI.sub n (by simp)
  have hndq := hI.nd
  rw [List.nodup_append] at hndq
  have hnacc : n ∉ acc := fun h => hndq.2.2 h (by simp)
  have hdepsn : ∀ d ∈ depsIn g n, d ∈ acc := (hI.mem n hnK).mp (Or.inr (by simp))
  -- facts about the newly enqueued nodes
  have hNZ : ∀ d, d ∈ (revMap g n).filter (fun d => decide (indeg d = 1)) →
      d ∈ g.map Prod.fst ∧ n ∈ depsIn g d ∧ d ∉ acc ∧ d ≠ n ∧ d ∉ rest := by
    intro d hd
    have hd1 := List.mem_filter.mp hd
    have hdr := (mem_revMap hwf.1).mp hd1.1
    have hdeg1 : indeg d = 1 := of_decide_eq_true hd1.2
    have hdacc : d ∉ acc := by
      intro hda
      have hsub := (hI.mem d hdr.1).mpr
      have : ∀ e ∈ depsIn g d, e ∈ acc := (hI.mem d hdr.1).mp (Or.inl hda)
      have hfe : (depsIn g d).filter (fun e => decide (e ∉ acc)) = [] := by
        apply List.filter_eq_nil_iff.mpr
        intro e he
        simpa using this e he
      have := hI.deg d hdr.1
      rw [hfe] at this
      simp at this
      omega
    have hdn : d ≠ n := by
      intro he
      exact not_self_depsIn hwf n (he ▸ hdr.2)
    have hdrest : d ∉ rest := by
      intro hdr'
      have : ∀ e ∈ depsIn g d, e ∈ acc := (hI.mem d hdr.1).mp (Or.inr (by simp [hdr']))
      have hfe : (depsIn g d).filter (fun e => decide (e ∉ acc)) = [] := by
        apply List.filter_eq_nil_iff.mpr
        intro e he
        simpa using this e he
      have := hI.deg d hdr.1
      rw [hfe] at this
      simp at this
      omega
    exact ⟨hdr.1, hdr.2, hdacc, hdn, hdrest⟩
  constructor
  case nd =>
    rw [hrel2]
    have hshape : (acc ++ [n]) ++ (rest ++ (revMap g n).filter (fun d => decide (indeg d = 1)))
        = (acc ++ n :: rest) ++ (revMap g n).filter (fun d => decide (indeg d = 1)) := by
      simp
    rw [hshape, List.nodup_append]
    refine ⟨hI.nd, ?_, ?_⟩
    · exact (List.Nodup.filter _ (revMap_nodup hwf.1 n))
    · intro x hx hy
      obtain ⟨_, _, hyacc, hyn, hyrest⟩ := hNZ x hy
      rcases List.mem_append.mp hx with hxa | hxq
      · exact hyacc hxa
      · rcases List.mem_cons.mp hxq with rfl | hxr
        · exact hyn rfl
        · exact hyrest hxr
  case sub =>
    rw [hrel2]
    intro x hx
    rcases List.mem_append.mp hx with hxa | hxq
    · rcases List.mem_append.mp hxa with hxa' | hxn
      · exact hI.sub x (by simp [hxa'])
      · rw [List.mem_singleton.mp hxn]; exact hnK
    · rcases List.mem_append.mp hxq with hxr | hxnz
      · exact hI.sub x (by simp [hxr])
      · exact (hNZ x hxnz).1
  case deg =>
    rw [hrel1]
    intro x hxK
    show (if x ∈ revMap g n then indeg x - 1 else indeg x) = _
    by_cases hxrev : x ∈ revMap g n
    · rw [if_pos hxrev]
      have hnx : n ∈ depsIn g x := ((mem_revMap hwf.1).mp hxrev).2
      have hold := hI.deg x hxK
      -- new filter = old filter minus n
      have hxnd : ((depsIn g x).filter (fun d => decide (d ∉ acc))).Nodup :=
        (depsIn_nodup hwf x).filter _
      have hnmem : n ∈ (depsIn g x).filter (fun d => decide (d ∉ acc)) :=
        List.mem_filter.mpr ⟨hnx, by simpa using hnacc⟩
      have hsplit : (depsIn g x).filter (fun d => decide (d ∉ acc ++ [n])) =
          ((depsIn g x).filter (fun d => decide (d ∉ acc))).filter (fun d => decide (d ≠ n)) := by
        rw [List.filter_filter]
        apply List.filter_congr
        intro d _
        by_cases hda : d ∈ acc <;> by_cases hdn : d = n <;>
          simp [hda, hdn]
      rw [hsplit]
      have herase : ((depsIn g x).filter (fun d => decide (d ∉ acc))).filter
            (fun d => decide (d ≠ n)) =
          ((depsIn g x).filter (fun d => decide (d ∉ acc))).erase n := by
        rw [List.Nodup.erase_eq_filter hxnd]
        apply List.filter_congr
        intro d _
        by_cases hdn : d = n <;> simp [hdn]
      rw [herase, List.length_erase_of_mem hnmem]
      have hpos : 0 < ((depsIn g x).filter (fun d => decide (d ∉ acc))).length :=
        List.length_pos_of_mem hnmem
      omega
    · rw [if_neg hxrev]
      have hnx : n ∉ depsIn g x := fun hn => hxrev ((mem_revMap hwf.1).mpr ⟨hxK, hn⟩)
      rw [hI.deg x hxK]
      congr 1
      congr 1
      apply List.filter_congr
      intro d hd
      have hdn : d ≠ n := fun he => hnx (he ▸ hd)
      by_cases hda : d ∈ acc <;> simp [hda, hdn]
  case mem =>
    rw [hrel2]
    intro x hxK
    constructor
    · intro hx
      rcases hx with hxa | hxq
      · rcases List.mem_append.mp hxa with hxa' | hxn
        · intro d hd
          exact List.mem_append.mpr (Or.inl ((hI.mem x hxK).mp (Or.inl hxa') d hd))
        · rw [List.mem_singleton.mp hxn]
          intro d hd
          exact List.mem_append.mpr (Or.inl (hdepsn d hd))
      · rcases List.mem_append.mp hxq with hxr | hxnz
        · intro d hd
          exact List.mem_append.mpr (Or.inl ((hI.mem x hxK).mp (Or.inr (by simp [hxr])) d hd))
        · -- x newly enqueued: its only unprocessed dep was n
          have hx1 := List.mem_filter.mp hxnz
          have hdeg1 : indeg x = 1 := of_decide_eq_true hx1.2
          have hfl : ((depsIn g x).filter (fun d => decide (d ∉ acc))).length = 1 := by
            have := hI.deg x hxK
            omega
          obtain ⟨a, ha⟩ := List.length_eq_one.mp hfl
          have hnx : n ∈ depsIn g x := ((mem_revMap hwf.1).mp hx1.1).2
          have hna : n ∈ [a] := ha ▸ List.mem_filter.mpr ⟨hnx, by simpa using hnacc⟩
          have han : a = n := (List.mem_singleton.mp hna).symm
          intro d hd
          by_cases hda : d ∈ acc
          · exact List.mem_append.mpr (Or.inl hda)
          · have : d ∈ [a] := ha ▸ List.mem_filter.mpr ⟨hd, by simpa using hda⟩
            rw [List.mem_singleton.mp this, han]
            simp
    · intro hsub
      by_cases hall : ∀ d ∈ depsIn g x, d ∈ acc
      · rcases (hI.mem x hxK).mpr hall with hxa | hxq
        · exact Or.inl (List.mem_append.mpr (Or.inl hxa))
        · rcases List.mem_cons.mp hxq with rfl | hxr
          · exact Or.inl (by simp)
          · exact Or.inr (List.mem_append.mpr (Or.inl hxr))
      · push_neg at hall
        obtain ⟨d0, hd0, hd0acc⟩ := hall
        have hd0n : d0 = n := by
          rcases List.mem_append.mp (hsub d0 hd0) with h | h
          · exact absurd h hd0acc
          · exact List.mem_singleton.mp h
        have hd0' : n ∈ depsIn g x := hd0n ▸ hd0
        have hd0acc' : n ∉ acc := hd0n ▸ hd0acc
        have hxrev : x ∈ revMap g n := (mem_revMap hwf.1).mpr ⟨hxK, hd0'⟩
        -- the unpopped deps of x form exactly [n]
        have hsub1 : ∀ e ∈ (depsIn g x).filter (fun d => decide (d ∉ acc)), e = n := by
          intro e he
          have he' := List.mem_filter.mp he
          have : e ∈ acc ++ [n] := hsub e he'.1
          rcases List.mem_append.mp this with h | h
          · exact absurd h (by simpa using he'.2)
          · exact List.mem_singleton.mp h
        have hnmem : n ∈ (depsIn g x).filter (fun d => decide (d ∉ acc)) :=
          List.mem_filter.mpr ⟨hd0', by simpa using hd0acc'⟩
        have hxnd : ((depsIn g x).filter (fun d => decide (d ∉ acc))).Nodup :=
          (depsIn_nodup hwf x).filter _
        have hfl : ((depsIn g x).filter (fun d => decide (d ∉ acc))).length = 1 := by
          have hle : ((depsIn g x).filter (fun d => decide (d ∉ acc))).length ≤ 1 := by
            have hsubl : (depsIn g x).filter (fun d => decide (d ∉ acc)) ⊆ [n] := by
              intro e he; rw [hsub1 e he]; simp
            have := (hxnd.subperm hsubl).length_le
            simpa using this
          have hge := List.length_pos_of_mem hnmem
          omega
        have hdeg1 : indeg x = 1 := by
          have := hI.deg x hxK
          omega
        exact Or.inr (List.mem_append.mpr (Or.inr
          (List.mem_filter.mpr ⟨hxrev, by simpa using hdeg1⟩)))
  case topo =>
    rw [List.pairwise_append]
    refine ⟨hI.topo, List.pairwise_singleton _ _, ?_⟩
    intro v hv w hw
    rw [List.mem_singleton.mp hw]
    intro hn
    exact hnacc ((hI.mem v (hI.sub v (by simp [hv]))).mp (Or.inl hv) n hn)

end RFSim
namespace RFSim
attribute [local semireducible] Rat.add Rat.mul Rat.sub Rat.inv

theorem kahnLoop_master {g : List (String × List String)} (hwf : GraphWF g) :
    ∀ (fuel : ℕ) (indeg : String → ℤ) (queue acc : List String),
      KInv g indeg queue acc →
      (g.map Prod.fst).length + 1 ≤ fuel + acc.length →
      ∃ accF indegF, kahnLoop g fuel indeg queue acc = accF ∧
        KInv g indegF [] accF ∧ acc.IsPrefix accF := by
  intro fuel
  induction fuel with
  | zero =>
      intro indeg queue acc hI hlen
      exfalso
      have hnd := hI.nd
      rw [List.nodup_append] at hnd
      have hsub : ∀ x ∈ acc, x ∈ g.map Prod.fst := fun x hx => hI.sub x (by simp [hx])
      have := (hnd.1.subperm hsub).length_le
      omega
  | succ f ih =>
      intro indeg queue acc hI hlen
      cases queue with
      | nil => exact ⟨acc, indeg, rfl, hI, List.prefix_refl acc⟩
      | cons n rest =>
          have hstep := KInv_step hwf hI
          have hrw : kahnLoop g (f + 1) indeg (n :: rest) acc =
              kahnLoop g f (relax (indeg, rest) (revMap g n)).1
                (relax (indeg, rest) (revMap g n)).2 (acc ++ [n]) := rfl
          obtain ⟨accF, indegF, heq, hinv, hpre⟩ :=
            ih (relax (indeg, rest) (revMap g n)).1 (relax (indeg, rest) (revMap g n)).2
              (acc ++ [n]) hstep
              (by simp only [List.length_append, List.length_singleton] at hlen ⊢; omega)
          exact ⟨accF, indegF, hrw ▸ heq, hinv,
            (List.prefix_append acc [n]).trans hpre⟩

theorem KInv_init {g : List (String × List String)} (hwf : GraphWF g) :
    KInv g (fun x => (((g.lookup x).getD []).length : ℤ))
      ((g.filter (fun p => p.2.isEmpty)).map Prod.fst) [] := by
  constructor
  case nd =>
    simp only [List.nil_append]
    exact ((List.filter_sublist g).map Prod.fst).nodup hwf.1
  case sub =>
    intro x hx
    simp only [List.nil_append] at hx
    obtain ⟨p, hp, rfl⟩ := List.mem_map.mp hx
    exact List.mem_map_of_mem _ (List.mem_filter.mp hp).1
  case deg =>
    intro x _
    have : (depsIn g x).filter (fun d => decide (d ∉ ([] : List String))) = depsIn g x := by
      apply List.filter_eq_self.mpr
      intro d _
      simp
    rw [this]
    rfl
  case mem =>
    intro x hxK
    simp only [List.not_mem_nil, false_or]
    constructor
    · intro hx
      obtain ⟨p, hp, rfl⟩ := List.mem_map.mp hx
      have hp' := List.mem_filter.mp hp
      rw [depsIn_eq hwf.1 hp'.1]
      intro d hd
      have hempty : p.2 = [] := List.isEmpty_iff.mp hp'.2
      rw [hempty] at hd
      cases hd
    · intro hall
      obtain ⟨p, hp, rfl⟩ := List.mem_map.mp hxK
      apply List.mem_map_of_mem
      apply List.mem_filter.mpr
      refine ⟨hp, ?_⟩
      rw [depsIn_eq hwf.1 hp] at hall
      have : p.2 = [] := by
        cases hsnd : p.2 with
        | nil => rfl
        | cons a t => exact absurd (hall a (by rw [hsnd]; simp)) (by simp)
      simp [this]
  case topo => exact List.Pairwise.nil

theorem kahn_run_facts {g : List (String × List String)} (hwf : GraphWF g) :
    ∃ accF indegF,
      kahn g = (if accF.length = g.length then Except.ok accF else Except.error RErr.cycle) ∧
      KInv g indegF [] accF := by
  obtain ⟨accF, indegF, heq, hinv, _⟩ := kahnLoop_master hwf
    (g.length + (g.map (fun p => p.2.length)).sum + 1)
    (fun x => (((g.lookup x).getD []).length : ℤ))
    ((g.filter (fun p => p.2.isEmpty)).map Prod.fst) []
    (KInv_init hwf)
    (by simp only [List.length_map, List.length_nil]; omega)
  refine ⟨accF, indegF, ?_, hinv⟩
  simp only [kahn, heq]

end RFSim
namespace RFSim
attribute [local semireducible] Rat.add Rat.mul Rat.sub Rat.inv

theorem cyclic_of_incomplete {g : List (String × List String)} (hwf : GraphWF g)
    {indeg : String → ℤ} {acc : List String} (hI : KInv g indeg [] acc)
    (hlt : acc.length < (g.map Prod.fst).length) : Cyclic g := by
  classical
  -- the set of unprocessed keys
  set R : Finset String := ((g.map Prod.fst).filter (fun k => decide (k ∉ acc))).toFinset with hR
  have hRmem : ∀ x, x ∈ R ↔ x ∈ g.map Prod.fst ∧ x ∉ acc := by
    intro x
    rw [hR, List.mem_toFinset, List.mem_filter]
    simp
  have hRne : R.Nonempty := by
    by_contra hne
    rw [Finset.not_nonempty_iff_eq_empty] at hne
    have hsub : ∀ x ∈ g.map Prod.fst, x ∈ acc := by
      intro x hx
      by_contra hxa
      have : x ∈ R := (hRmem x).mpr ⟨hx, hxa⟩
      rw [hne] at this
      cases this
    have := (hwf.1.subperm hsub).length_le
    omega
  have hstep : ∀ x ∈ R, ∃ d, d ∈ R ∧ d ∈ depsIn g x := by
    intro x hx
    obtain ⟨hxK, hxacc⟩ := (hRmem x).mp hx
    have : ¬(∀ d ∈ depsIn g x, d ∈ acc) := by
      intro hall
      rcases (hI.mem x hxK).mpr hall with h | h
      · exact hxacc h
      · cases h
    push_neg at this
    obtain ⟨d, hd, hdacc⟩ := this
    exact ⟨d, (hRmem d).mpr ⟨depsIn_closed hwf hd, hdacc⟩, hd⟩
  -- iterate a chosen successor inside the finite set R
  obtain ⟨x0, hx0⟩ := hRne
  choose f hf1 hf2 using hstep
  let F : {x // x ∈ R} → {x // x ∈ R} := fun x => ⟨f x.1 x.2, hf1 x.1 x.2⟩
  let seq : ℕ → {x // x ∈ R} := fun k => F^[k] ⟨x0, hx0⟩
  have hchain : ∀ k, Relation.TransGen (relG g) (seq k).1 (seq (k + 1)).1 := by
    intro k
    apply Relation.TransGen.single
    have hs : seq (k + 1) = F (seq k) := Function.iterate_succ_apply' F k _
    rw [hs]
    exact ⟨((hRmem (seq k).1).mp (seq k).2).1, hf2 (seq k).1 (seq k).2⟩
  have htrans : ∀ k m, Relation.TransGen (relG g) (seq k).1 (seq (k + m + 1)).1 := by
    intro k m
    induction m with
    | zero => exact hchain k
    | succ m ihm => exact ihm.trans (hchain (k + m + 1))
  have : ∃ i j, i ≠ j ∧ seq i = seq j := by
    have := Finite.exists_ne_map_eq_of_infinite seq
    obtain ⟨i, j, hij, he⟩ := this
    exact ⟨i, j, hij, he⟩
  obtain ⟨i, j, hij, he⟩ := this
  rcases Nat.lt_or_ge i j with hlt' | hge
  · refine ⟨(seq i).1, ?_⟩
    have : Relation.TransGen (relG g) (seq i).1 (seq (i + (j - i - 1) + 1)).1 := htrans i (j - i - 1)
    rw [show i + (j - i - 1) + 1 = j by omega] at this
    rw [← he] at this
    exact this
  · have hlt'' : j < i := by omega
    refine ⟨(seq j).1, ?_⟩
    have : Relation.TransGen (relG g) (seq j).1 (seq (j + (i - j - 1) + 1)).1 := htrans j (i - j - 1)
    rw [show j + (i - j - 1) + 1 = i by omega] at this
    rw [he] at this
    exact this

theorem acyclic_of_complete {g : List (String × List String)} (hwf : GraphWF g)
    {indeg : String → ℤ} {acc : List String} (hI : KInv g indeg [] acc)
    (hlen : acc.length = (g.map Prod.fst).length) : ¬ Cyclic g := by
  have hnd : acc.Nodup := by
    have := hI.nd
    rwa [List.append_nil] at this
  have hsub : ∀ x ∈ acc, x ∈ g.map Prod.fst := by
    intro x hx
    exact hI.sub x (by simpa using hx)
  have hcov : ∀ x ∈ g.map Prod.fst, x ∈ acc := by
    intro x hxK
    -- acc is a Nodup subset of keys with equal length, hence a permutation
    have hperm : acc.Perm (g.map Prod.fst) :=
      (hnd.subperm hsub).perm_of_length_le (by omega)
    exact hperm.mem_iff.mpr hxK
  -- an edge goes strictly backwards in acc
  have hidx : ∀ x y, relG g x y → acc.indexOf y < acc.indexOf x := by
    intro x y hxy
    obtain ⟨hxK, hyd⟩ := hxy
    have hyK := depsIn_closed hwf hyd
    have hxacc := hcov x hxK
    have hyacc := hcov y hyK
    have hxi := List.indexOf_lt_length.mpr hxacc
    have hyi := List.indexOf_lt_length.mpr hyacc
    have hne : y ≠ x := fun he => not_self_depsIn hwf x (he ▸ hyd)
    rcases Nat.lt_trichotomy (acc.indexOf y) (acc.indexOf x) with h | h | h
    · exact h
    · exact absurd ((List.indexOf_inj hyacc hxacc).mp h) hne
    · exfalso
      have hp := List.pairwise_iff_getElem.mp hI.topo (acc.indexOf x) (acc.indexOf y) hxi hyi h
      rw [List.getElem_indexOf hxi, List.getElem_indexOf hyi] at hp
      exact hp hyd
  intro hcyc
  obtain ⟨a, ha⟩ := hcyc
  have : ∀ x y, Relation.TransGen (relG g) x y → acc.indexOf y < acc.indexOf x := by
    intro x y h
    induction h with
    | single h1 => exact hidx _ _ h1
    | tail _ h2 ih => exact (hidx _ _ h2).trans ih
  exact absurd (this a a ha) (lt_irrefl _)

end RFSim
namespace RFSim
attribute [local semireducible] Rat.add Rat.mul Rat.sub Rat.inv

theorem KInv_final_length {g : List (String × List String)}
    {indeg : String → ℤ} {acc : List String} (hI : KInv g indeg [] acc) :
    acc.length ≤ g.length := by
  have hnd : acc.Nodup := by
    have := hI.nd; rwa [List.append_nil] at this
  have hsub : ∀ x ∈ acc, x ∈ g.map Prod.fst := fun x hx => hI.sub x (by simpa using hx)
  have := (hnd.subperm hsub).length_le
  simpa using this

theorem kahn_error_iff_cyclic {g : List (String × List String)} (hwf : GraphWF g) :
    kahn g = .error RErr.cycle ↔ Cyclic g := by
  obtain ⟨accF, indegF, heq, hinv⟩ := kahn_run_facts hwf
  by_cases hlen : accF.length = g.length
  · rw [heq, if_pos hlen]
    have hacyc := acyclic_of_complete hwf hinv (by simpa using hlen)
    constructor
    · intro h; cases h
    · intro h; exact absurd h hacyc
  · rw [heq, if_neg hlen]
    have hlt : accF.length < (g.map Prod.fst).length := by
      have := KInv_final_length hinv
      simp only [List.length_map]
      omega
    have hcyc := cyclic_of_incomplete hwf hinv hlt
    exact ⟨fun _ => hcyc, fun _ => rfl⟩

theorem kahn_ok_or_cycle {g : List (String × List String)} (hwf : GraphWF g) :
    (∃ L, kahn g = .ok L) ∨ kahn g = .error RErr.cycle := by
  obtain ⟨accF, indegF, heq, _⟩ := kahn_run_facts hwf
  by_cases hlen : accF.length = g.length
  · exact Or.inl ⟨accF, by rw [heq, if_pos hlen]⟩
  · exact Or.inr (by rw [heq, if_neg hlen])

theorem kahn_ok_valid {g : List (String × List String)} (hwf : GraphWF g)
    {L : List String} (h : kahn g = .ok L) :
    L.Perm (g.map Prod.fst) ∧ L.Nodup ∧
    (∀ (i : ℕ) (hi : i < L.length), ∀ d ∈ depsIn g (L.get ⟨i, hi⟩), d ∈ L.take i) := by
  obtain ⟨accF, indegF, heq, hinv⟩ := kahn_run_facts hwf
  rw [heq] at h
  by_cases hlen : accF.length = g.length
  · rw [if_pos hlen] at h
    have hLa : L = accF := by
      injection h with h'
      exact h'.symm
    subst hLa
    have hnd : L.Nodup := by
      have := hinv.nd; rwa [List.append_nil] at this
    have hsub : ∀ x ∈ L, x ∈ g.map Prod.fst := fun x hx => hinv.sub x (by simpa using hx)
    have hperm : L.Perm (g.map Prod.fst) :=
      (hnd.subperm hsub).perm_of_length_le (by simp; omega)
    refine ⟨hperm, hnd, ?_⟩
    intro i hi d hd
    have hx : L.get ⟨i, hi⟩ ∈ L := L.get_mem i hi
    have hxK : L.get ⟨i, hi⟩ ∈ g.map Prod.fst := hsub _ hx
    have hdK : d ∈ g.map Prod.fst := depsIn_closed hwf hd
    have hdL : d ∈ L := hperm.mem_iff.mpr hdK
    have hdi := List.indexOf_lt_length.mpr hdL
    have hne : d ≠ L.get ⟨i, hi⟩ := fun he => not_self_depsIn hwf _ (he ▸ hd)
    -- position of d is strictly below i
    have hidx : L.indexOf d < i := by
      rcases Nat.lt_trichotomy (L.indexOf d) i with hc | hc | hc
      · exact hc
      · exfalso
        apply hne
        have h2 := List.getElem_indexOf hdi
        subst hc
        rw [List.get_eq_getElem]
        exact h2.symm
      · exfalso
        have hp := List.pairwise_iff_getElem.mp hinv.topo i (L.indexOf d) hi hdi hc
        rw [List.getElem_indexOf hdi] at hp
        exact hp (by simpa using hd)
    have hjt : L.indexOf d < (L.take i).length := by
      rw [List.length_take]
      have hile : i ≤ L.length := Nat.le_of_lt hi
      omega
    have hget : (L.take i)[L.indexOf d] = L[L.indexOf d] :=
      @List.getElem_take _ L i (L.indexOf d) hjt
    have hmem : (L.take i)[L.indexOf d] ∈ L.take i := List.getElem_mem hjt
    rw [hget, List.getElem_indexOf hdi] at hmem
    exact hmem
  · rw [if_neg hlen] at h
    cases h

theorem depsOf_wf (keys : List String) (k : String) (e : SExpr) :
    (depsOf keys k e).Nodup ∧ k ∉ depsOf keys k e ∧ ∀ x ∈ depsOf keys k e, x ∈ keys := by
  refine ⟨List.nodup_dedup _, ?_, ?_⟩
  · intro hk
    have := List.mem_filter.mp (List.mem_dedup.mp hk)
    simp at this
  · intro x hx
    have := List.mem_filter.mp (List.mem_dedup.mp hx)
    have h2 := this.2
    simp at h2
    exact h2.2

theorem buildStep_ok_deps {keys : List String} {k : String} {v v' : RawParam}
    {ds : List String} (h : buildStep keys (k, v) = .ok (v', ds)) :
    ds.Nodup ∧ k ∉ ds ∧ ∀ x ∈ ds, x ∈ keys := by
  cases v with
  | num x =>
      simp [buildStep] at h
      obtain ⟨-, rfl⟩ := h
      exact ⟨List.nodup_nil, List.not_mem_nil k, fun x hx => absurd hx (List.not_mem_nil x)⟩
  | unitStr m =>
      simp [buildStep] at h
      obtain ⟨-, rfl⟩ := h
      exact ⟨List.nodup_nil, List.not_mem_nil k, fun x hx => absurd hx (List.not_mem_nil x)⟩
  | exprStr e =>
      simp [buildStep] at h
      obtain ⟨-, rfl⟩ := h
      exact depsOf_wf keys k e
  | badStr => simp [buildStep] at h
  | sexpr e =>
      simp [buildStep] at h
      obtain ⟨-, rfl⟩ := h
      exact depsOf_wf keys k e
  | other => simp [buildStep] at h

theorem buildDG_ok_shape (keys : List String) :
    ∀ (d : List (String × RawParam)) (d2 : List (String × RawParam))
      (G : List (String × List String)), buildDG keys d = .ok (d2, G) →
      G.map Prod.fst = d.map Prod.fst ∧ d2.map Prod.fst = d.map Prod.fst ∧
      ∀ p ∈ G, p.2.Nodup ∧ p.1 ∉ p.2 ∧ ∀ x ∈ p.2, x ∈ keys := by
  intro d
  induction d with
  | nil =>
      intro d2 G h
      simp [buildDG] at h
      obtain ⟨rfl, rfl⟩ := h
      exact ⟨rfl, rfl, fun p hp => absurd hp (List.not_mem_nil p)⟩
  | cons e rest ih =>
      intro d2 G h
      obtain ⟨k, v⟩ := e
      unfold buildDG at h
      cases hs : buildStep keys (k, v) with
      | error e0 => rw [hs] at h; simp at h
      | ok pr =>
          obtain ⟨v', ds⟩ := pr
          rw [hs] at h
          cases hr : buildDG keys rest with
          | error pr2 => rw [hr] at h; simp at h
          | ok pr2 =>
              obtain ⟨rest', g'⟩ := pr2
              rw [hr] at h
              simp at h
              obtain ⟨h1, h2⟩ := h
              obtain ⟨ih1, ih2, ih3⟩ := ih rest' g' hr
              refine ⟨?_, ?_, ?_⟩
              · rw [← h2]; simp [ih1]
              · rw [← h1]; simp [ih2]
              · intro p hp
                rw [← h2] at hp
                rcases List.mem_cons.mp hp with rfl | hp'
                · exact buildStep_ok_deps hs
                · exact ih3 p hp'

theorem buildDepGraph_wf {d : List (String × RawParam)}
    {d2 : List (String × RawParam)} {G : List (String × List String)}
    (hnd : (keysOf d).Nodup) (hb : buildDepGraph d = .ok (d2, G)) :
    GraphWF G ∧ G.map Prod.fst = keysOf d ∧ d2.map Prod.fst = keysOf d := by
  obtain ⟨h1, h2, h3⟩ := buildDG_ok_shape (keysOf d) d d2 G hb
  refine ⟨⟨?_, ?_⟩, h1, h2⟩
  · rw [h1]; exact hnd
  · intro p hp
    obtain ⟨hn, hs, hc⟩ := h3 p hp
    exact ⟨hn, hs, fun x hx => h1 ▸ hc x hx⟩

theorem resolveEntry_ne_cycle (dict : List (String × RawParam))
    (resolved : List (String × PFloat)) (k : String) :
    resolveEntry dict resolved k ≠ .error RErr.cycle := by
  unfold resolveEntry
  cases h : dict.lookup k with
  | none => simp
  | some v =>
      cases v with
      | num x => simp
      | unitStr m => simp
      | exprStr e => simp
      | badStr => simp
      | sexpr e =>
          cases he : e.evalQ (lookupPF resolved) <;> simp [he]
      | other => simp

theorem resolveLoop_ne_cycle (dict : List (String × RawParam)) :
    ∀ (order : List String) (acc : List (String × PFloat)),
      resolveLoop dict order acc ≠ .error RErr.cycle := by
  intro order
  induction order with
  | nil => intro acc h; simp [resolveLoop] at h
  | cons k rest ih =>
      intro acc h
      unfold resolveLoop at h
      cases he : resolveEntry dict acc k with
      | error e0 =>
          rw [he] at h
          simp at h
          exact resolveEntry_ne_cycle dict acc k (he.trans (by rw [h]))
      | ok v =>
          rw [he] at h
          exact ih (acc ++ [(k, v)]) h

/-- C6: with the dependency graph `G` that `_build_dependency_graph`
produced, `resolve` raises the circular-dependency `ParameterError` if
and only if `G` contains a dependency cycle: Kahn's algorithm emits all
nodes exactly on acyclic graphs, no other `resolve` stage raises the
cycle error, and a cyclic graph always stops `resolve` at the sort. -/
theorem resolve_cycle_error_iff {d : List (String × RawParam)}
    {d2 : List (String × RawParam)} {G : List (String × List String)}
    (hnd : (keysOf d).Nodup) (hb : buildDepGraph d = .ok (d2, G)) :
    (resolve d = .error RErr.cycle ↔ Cyclic G) := by
  obtain ⟨hwf, _, _⟩ := buildDepGraph_wf hnd hb
  rcases kahn_ok_or_cycle hwf with ⟨L, hk⟩ | hk
  · have hres : resolve d = resolveLoop d2 L [] := by
      simp only [resolve, resolveRun, hb, hk]
    rw [hres]
    exact ⟨fun h => absurd h (resolveLoop_ne_cycle d2 L []),
      fun hcyc => absurd ((kahn_error_iff_cyclic hwf).mpr hcyc) (by rw [hk]; simp)⟩
  · have hres : resolve d = .error RErr.cycle := by
      simp only [resolve, resolveRun, hb, hk]
    rw [hres]
    exact ⟨fun _ => (kahn_error_iff_cyclic hwf).mp hk, fun _ => rfl⟩

/-- Witness for C6 on the spec's concrete cycle `a_val: b_val + 1;
b_val: a_val + 1`: the built graph is cyclic and `resolve` raises the
cycle error. -/
theorem resolve_cycle_error_iff_witness :
    Cyclic [("a_val", ["b_val"]), ("b_val", ["a_val"])] ∧
    resolve [("a_val", RawParam.sexpr (.add (.var "b_val") (.lit 1))),
             ("b_val", RawParam.sexpr (.add (.var "a_val") (.lit 1)))] =
      .error RErr.cycle := by
  have hiff := @resolve_cycle_error_iff
    [("a_val", RawParam.sexpr (.add (.var "b_val") (.lit 1))),
     ("b_val", RawParam.sexpr (.add (.var "a_val") (.lit 1)))]
    [("a_val", RawParam.sexpr (.add (.var "b_val") (.lit 1))),
     ("b_val", RawParam.sexpr (.add (.var "a_val") (.lit 1)))]
    [("a_val", ["b_val"]), ("b_val", ["a_val"])]
    (by decide) (by decide)
  exact ⟨hiff.mp (by decide), by decide⟩

end RFSim
namespace RFSim
attribute [local semireducible] Rat.add Rat.mul Rat.sub Rat.inv

theorem evalQ_congr {env1 env2 : String → Option ℚ} (e : SExpr)
    (h : ∀ s ∈ e.freeVars, env1 s = env2 s) : e.evalQ env1 = e.evalQ env2 := by
  induction e with
  | lit q => rfl
  | var s => exact h s (by simp [SExpr.freeVars])
  | add a b iha ihb =>
      simp only [SExpr.evalQ]
      rw [iha (fun s hs => h s (by simp [SExpr.freeVars, hs])),
          ihb (fun s hs => h s (by simp [SExpr.freeVars, hs]))]
  | sub a b iha ihb =>
      simp only [SExpr.evalQ]
      rw [iha (fun s hs => h s (by simp [SExpr.freeVars, hs])),
          ihb (fun s hs => h s (by simp [SExpr.freeVars, hs]))]
  | mul a b iha ihb =>
      simp only [SExpr.evalQ]
      rw [iha (fun s hs => h s (by simp [SExpr.freeVars, hs])),
          ihb (fun s hs => h s (by simp [SExpr.freeVars, hs]))]
  | div a b iha ihb =>
      simp only [SExpr.evalQ]
      rw [iha (fun s hs => h s (by simp [SExpr.freeVars, hs])),
          ihb (fun s hs => h s (by simp [SExpr.freeVars, hs]))]
  | neg a iha =>
      simp only [SExpr.evalQ]
      rw [iha (fun s hs => h s (by simp [SExpr.freeVars, hs]))]

theorem denoteF_nonkey {dict : List (String × RawParam)} {s : String}
    (h : dict.lookup s = none) : ∀ fuel, denoteF dict fuel s = none := by
  intro fuel
  cases fuel with
  | zero => rfl
  | succ f => simp [denoteF, h]

theorem denoteF_congr {dict1 dict2 : List (String × RawParam)}
    (h : ∀ k, dict1.lookup k = dict2.lookup k) :
    ∀ fuel k, denoteF dict1 fuel k = denoteF dict2 fuel k := by
  intro fuel
  induction fuel with
  | zero => intro k; rfl
  | succ f ih =>
      intro k
      simp only [denoteF, h k]
      cases dict2.lookup k with
      | none => rfl
      | some v =>
          cases v with
          | num x => rfl
          | unitStr m => rfl
          | sexpr e =>
              simp only []
              congr 1
              apply evalQ_congr
              intro s _
              by_cases hs : s = k
              · simp [hs]
              · simp [hs, ih s]
          | exprStr e => rfl
          | badStr => rfl
          | other => rfl

theorem denoteF_stable {dict : List (String × RawParam)} {L : List String}
    (htopo : ∀ (i : ℕ) (hi : i < L.length), ∀ e,
      dict.lookup (L.get ⟨i, hi⟩) = some (.sexpr e) →
      ∀ s ∈ e.freeVars, s ≠ L.get ⟨i, hi⟩ → s ∈ keysOf dict → s ∈ L.take i) :
    ∀ (i : ℕ) (hi : i < L.length) (f : ℕ), i + 1 ≤ f →
      denoteF dict f (L.get ⟨i, hi⟩) = denoteF dict (i + 1) (L.get ⟨i, hi⟩) := by
  intro i
  induction i using Nat.strong_induction_on with
  | _ i ih =>
      intro hi f hf
      obtain ⟨f', rfl⟩ : ∃ f', f = f' + 1 := ⟨f - 1, by omega⟩
      set k := L.get ⟨i, hi⟩ with hk
      cases hlk : dict.lookup k with
      | none => simp [denoteF, hlk]
      | some v =>
          cases v with
          | num x => simp [denoteF, hlk]
          | unitStr m => simp [denoteF, hlk]
          | exprStr e => simp [denoteF, hlk]
          | badStr => simp [denoteF, hlk]
          | other => simp [denoteF, hlk]
          | sexpr e =>
              simp only [denoteF, hlk]
              congr 1
              apply evalQ_congr
              intro s hs
              by_cases hsk : s = k
              · simp [hsk]
              · simp only [if_neg hsk]
                by_cases hskey : s ∈ keysOf dict
                · have hstake := htopo i hi e (hk ▸ hlk) s hs (hk ▸ hsk) hskey
                  obtain ⟨j, hj, hjs⟩ := List.mem_iff_getElem.mp hstake
                  have hjlen : j < L.length := by
                    have := List.length_take_le i L
                    omega
                  have hji : j < i := by
                    have := hj
                    rw [List.length_take] at this
                    omega
                  have hjget : (L.take i)[j] = L[j] := @List.getElem_take _ L i j hj
                  have hsL : s = L.get ⟨j, hjlen⟩ := by
                    rw [List.get_eq_getElem, ← hjget, hjs]
                  rw [hsL]
                  have e1 := ih j hji hjlen f' (by omega)
                  have e2 := ih j hji hjlen i (by omega)
                  rw [e1, e2]
                · have hnone : dict.lookup s = none := by
                    apply lookup_eq_none_of_not_mem
                    exact hskey
                  rw [denoteF_nonkey hnone, denoteF_nonkey hnone]

end RFSim
namespace RFSim
attribute [local semireducible] Rat.add Rat.mul Rat.sub Rat.inv

theorem resolveEntry_denote_step {dict : List (String × RawParam)} {L : List String}
    (hLnd : L.Nodup)
    (hful : ∀ s ∈ L, s ∈ keysOf dict)
    (hgood : ∀ k ∈ L, (∃ x, dict.lookup k = some (.num x)) ∨
      (∃ e, dict.lookup k = some (.sexpr e)))
    (htopo : ∀ (j : ℕ) (hj : j < L.length), ∀ e,
      dict.lookup (L.get ⟨j, hj⟩) = some (.sexpr e) →
      ∀ s ∈ e.freeVars, s ≠ L.get ⟨j, hj⟩ → s ∈ keysOf dict → s ∈ L.take j)
    (i : ℕ) (hi : i < L.length) (acc : List (String × PFloat))
    (hacc : ∀ s, acc.lookup s = if s ∈ L.take i then denoteF dict L.length s else none) :
    resolveEntry dict acc (L.get ⟨i, hi⟩) =
      (match denoteF dict L.length (L.get ⟨i, hi⟩) with
        | some v => Except.ok v
        | none => Except.error (RErr.evalFail (L.get ⟨i, hi⟩))) := by
  set k := L.get ⟨i, hi⟩ with hk
  have hkL : k ∈ L := by rw [hk]; exact L.get_mem i hi
  have hknotake : k ∉ L.take i := by
    intro hmem
    obtain ⟨j, hj, hjs⟩ := List.mem_iff_getElem.mp hmem
    have hji : j < i := by
      have := hj; rw [List.length_take] at this; omega
    have hjlen : j < L.length := by omega
    have hjget : (L.take i)[j] = L[j] := @List.getElem_take _ L i j hj
    have : L[j] = L[i] := by
      rw [← hjget, hjs, hk, List.get_eq_getElem]
    have := (hLnd.getElem_inj_iff).mp this
    omega
  have hstab := denoteF_stable htopo
  have hN : denoteF dict L.length k = denoteF dict (i + 1) k := by
    rw [hk]
    exact hstab i hi L.length (by omega)
  rcases hgood k hkL with ⟨x, hlk⟩ | ⟨e, hlk⟩
  · rw [hN]
    simp [resolveEntry, denoteF, hlk]
  · have henv : ∀ s ∈ e.freeVars,
        lookupPF acc s = (if s = k then none else (denoteF dict i s).bind PFloat.toQ) := by
      intro s hs
      by_cases hsk : s = k
      · subst hsk
        simp [lookupPF, hacc k, hknotake]
      · rw [if_neg hsk]
        by_cases hskey : s ∈ keysOf dict
        · have hstake : s ∈ L.take i :=
            htopo i hi e (hk ▸ hlk) s hs (fun h => hsk (h.trans hk.symm)) hskey
          obtain ⟨j, hj, hjs⟩ := List.mem_iff_getElem.mp hstake
          have hji : j < i := by
            have := hj; rw [List.length_take] at this; omega
          have hjlen : j < L.length := by omega
          have hjget : (L.take i)[j] = L[j] := @List.getElem_take _ L i j hj
          have hsL : s = L.get ⟨j, hjlen⟩ := by
            rw [List.get_eq_getElem, ← hjget, hjs]
          have e1 : denoteF dict L.length s = denoteF dict (j + 1) s := by
            rw [hsL]; exact hstab j hjlen L.length (by omega)
          have e2 : denoteF dict i s = denoteF dict (j + 1) s := by
            rw [hsL]; exact hstab j hjlen i (by omega)
          rw [lookupPF, hacc s, if_pos hstake, e1, e2]
        · have hnone : dict.lookup s = none := lookup_eq_none_of_not_mem hskey
          have hstake : s ∉ L.take i := by
            intro hmem
            exact hskey (hful s (List.take_subset i L hmem))
          rw [lookupPF, hacc s, if_neg hstake, denoteF_nonkey hnone]
    have hevq : e.evalQ (lookupPF acc) =
        e.evalQ (fun s => if s = k then none else (denoteF dict i s).bind PFloat.toQ) :=
      evalQ_congr e henv
    rw [hN]
    show resolveEntry dict acc k = _
    simp only [resolveEntry, hlk, denoteF, hevq]
    cases e.evalQ (fun s => if s = k then none else (denoteF dict i s).bind PFloat.toQ) with
    | none => rfl
    | some v => rfl

end RFSim
namespace RFSim
attribute [local semireducible] Rat.add Rat.mul Rat.sub Rat.inv

theorem resolveLoop_denote_aux {dict : List (String × RawParam)} {L : List String}
    (hLnd : L.Nodup)
    (hful : ∀ s ∈ L, s ∈ keysOf dict)
    (hgood : ∀ k ∈ L, (∃ x, dict.lookup k = some (.num x)) ∨
      (∃ e, dict.lookup k = some (.sexpr e)))
    (htopo : ∀ (j : ℕ) (hj : j < L.length), ∀ e,
      dict.lookup (L.get ⟨j, hj⟩) = some (.sexpr e) →
      ∀ s ∈ e.freeVars, s ≠ L.get ⟨j, hj⟩ → s ∈ keysOf dict → s ∈ L.take j) :
    ∀ (n i : ℕ) (acc : List (String × PFloat)), n = L.length - i → i ≤ L.length →
      (∀ s, acc.lookup s = if s ∈ L.take i then denoteF dict L.length s else none) →
      ((∀ k ∈ L.drop i, denoteF dict L.length k ≠ none) →
        ∃ m, resolveLoop dict (L.drop i) acc = .ok m ∧
          ∀ s, m.lookup s = if s ∈ L then denoteF dict L.length s else none) ∧
      (∀ m, resolveLoop dict (L.drop i) acc = .ok m →
        ∀ k ∈ L.drop i, denoteF dict L.length k ≠ none) := by
  intro n
  induction n with
  | zero =>
      intro i acc hn hile hacc
      have hieq : i = L.length := by omega
      subst hieq
      rw [List.drop_length]
      constructor
      · intro _
        refine ⟨acc, rfl, ?_⟩
        intro s
        rw [hacc s, List.take_length]
      · intro m _ k hk
        cases hk
  | succ n ihn =>
      intro i acc hn hile hacc
      have hi : i < L.length := by omega
      have hdrop : L.drop i = L[i] :: L.drop (i + 1) := List.drop_eq_getElem_cons hi
      have hkget : L[i] = L.get ⟨i, hi⟩ := rfl
      have hstep := resolveEntry_denote_step hLnd hful hgood htopo i hi acc hacc
      have hknotake : L.get ⟨i, hi⟩ ∉ L.take i := by
        intro hmem
        obtain ⟨j, hj, hjs⟩ := List.mem_iff_getElem.mp hmem
        have hji : j < i := by
          have := hj; rw [List.length_take] at this; omega
        have hjget : (L.take i)[j] = L[j] := @List.getElem_take _ L i j hj
        have : L[j] = L[i] := by rw [← hjget, hjs]; rfl
        have := (hLnd.getElem_inj_iff).mp this
        omega
      cases hev : denoteF dict L.length (L.get ⟨i, hi⟩) with
      | none =>
          have hloopfail : resolveLoop dict (L.drop i) acc =
              .error (RErr.evalFail (L.get ⟨i, hi⟩)) := by
            rw [hdrop]
            simp only [resolveLoop, hkget, hstep, hev]
          constructor
          · intro hall
            have hmem : L.get ⟨i, hi⟩ ∈ L.drop i := by
              rw [hdrop]
              exact List.mem_cons_self _ _
            exact absurd hev (hall (L.get ⟨i, hi⟩) hmem)
          · intro m hm
            rw [hloopfail] at hm
            cases hm
      | some v =>
          have hloopstep : resolveLoop dict (L.drop i) acc =
              resolveLoop dict (L.drop (i + 1)) (acc ++ [(L.get ⟨i, hi⟩, v)]) := by
            rw [hdrop]
            simp only [resolveLoop, hkget, hstep, hev]
          have htake1 : L.take (i + 1) = L.take i ++ [L.get ⟨i, hi⟩] :=
            (List.take_concat_get' L i hi).symm
          have hacc1 : ∀ s, (acc ++ [(L.get ⟨i, hi⟩, v)]).lookup s =
              if s ∈ L.take (i + 1) then denoteF dict L.length s else none := by
            intro s
            rw [List.lookup_append]
            by_cases hstk : s ∈ L.take i
            · have hsk : s ≠ L.get ⟨i, hi⟩ := fun he => hknotake (he ▸ hstk)
              have hb : (s == L.get ⟨i, hi⟩) = false := beq_false_of_ne hsk
              have hsingle : List.lookup s [(L.get ⟨i, hi⟩, v)] = none := by
                rw [List.lookup, hb]; exact rfl
              rw [hacc s, if_pos hstk, hsingle, Option.or_none]
              rw [if_pos (htake1 ▸ List.mem_append.mpr (Or.inl hstk))]
            · by_cases hsk : s = L.get ⟨i, hi⟩
              · have hb : (s == L.get ⟨i, hi⟩) = true := beq_iff_eq.mpr hsk
                have hsingle : List.lookup s [(L.get ⟨i, hi⟩, v)] = some v := by
                  rw [List.lookup, hb]
                rw [hacc s, if_neg hstk, hsingle, Option.none_or, hsk]
                rw [if_pos (htake1 ▸ List.mem_append.mpr (Or.inr (by simp))), hev]
              · have hb : (s == L.get ⟨i, hi⟩) = false := beq_false_of_ne hsk
                have hsingle : List.lookup s [(L.get ⟨i, hi⟩, v)] = none := by
                  rw [List.lookup, hb]; exact rfl
                have hstk1 : s ∉ L.take (i + 1) := by
                  rw [htake1]
                  intro hmem
                  rcases List.mem_append.mp hmem with h | h
                  · exact hstk h
                  · exact hsk (List.mem_singleton.mp h)
                rw [hacc s, if_neg hstk, hsingle, Option.none_or, if_neg hstk1]
          obtain ⟨ihA, ihB⟩ := ihn (i + 1) (acc ++ [(L.get ⟨i, hi⟩, v)])
            (by omega) (by omega) hacc1
          constructor
          · intro hall
            obtain ⟨m, hm, hchar⟩ := ihA (fun k' hk' => hall k'
              (by rw [hdrop]; exact List.mem_cons_of_mem _ hk'))
            exact ⟨m, by rw [hloopstep]; exact hm, hchar⟩
          · intro m hm k' hk'
            rw [hloopstep] at hm
            rw [hdrop] at hk'
            rcases List.mem_cons.mp hk' with rfl | hk''
            · rw [hkget, hev]
              simp
            · exact ihB m hm k' hk''

end RFSim
namespace RFSim
attribute [local semireducible] Rat.add Rat.mul Rat.sub Rat.inv

theorem lookup_isSome_of_mem {β : Type _} {d : List (String × β)} {k : String}
    (h : k ∈ d.map Prod.fst) : ∃ v, d.lookup k = some v := by
  induction d with
  | nil => simp at h
  | cons p rest ih =>
      by_cases hk : k = p.1
      · exact ⟨p.2, by simp [List.lookup, hk]⟩
      · have hb : (k == p.1) = false := beq_false_of_ne hk
        have hr : k ∈ rest.map Prod.fst := by
          simp only [List.map_cons, List.mem_cons] at h
          rcases h with h1 | h1
          · exact absurd h1 hk
          · exact h1
        obtain ⟨v, hv⟩ := ih hr
        exact ⟨v, by simp [List.lookup, hb, hv]⟩

theorem mem_of_lookup_eq_some {β : Type _} {d : List (String × β)} {k : String}
    {v : β} (h : d.lookup k = some v) : (k, v) ∈ d := by
  induction d with
  | nil => cases h
  | cons p rest ih =>
      by_cases hk : k = p.1
      · have hb : (k == p.1) = true := beq_iff_eq.mpr hk
        rw [List.lookup, hb] at h
        injection h with h'
        subst h'
        subst hk
        exact List.mem_cons_self _ _
      · have hb : (k == p.1) = false := beq_false_of_ne hk
        rw [List.lookup, hb] at h
        exact List.mem_cons_of_mem _ (ih h)

theorem perm_lookup {β : Type _} {d d' : List (String × β)} (hperm : d.Perm d')
    (hnd : (d.map Prod.fst).Nodup) : ∀ k, d.lookup k = d'.lookup k := by
  have hpk : (d.map Prod.fst).Perm (d'.map Prod.fst) := hperm.map Prod.fst
  have hnd' : (d'.map Prod.fst).Nodup := hpk.nodup_iff.mp hnd
  intro k
  cases hl : d.lookup k with
  | none =>
      have hk : k ∉ d.map Prod.fst := by
        intro hk
        obtain ⟨v, hv⟩ := lookup_isSome_of_mem hk
        rw [hl] at hv; cases hv
      exact (lookup_eq_none_of_not_mem (fun h => hk (hpk.mem_iff.mpr h))).symm
  | some v =>
      have hmem : (k, v) ∈ d := mem_of_lookup_eq_some hl
      exact (nodup_lookup_mem hnd' (hperm.mem_iff.mp hmem)).symm

theorem depsOf_congr {keys keys' : List String} (h : ∀ n, n ∈ keys ↔ n ∈ keys')
    (k : String) (e : SExpr) : depsOf keys k e = depsOf keys' k e := by
  unfold depsOf
  congr 1
  apply List.filter_congr
  intro a _
  have hd : decide (a ∈ keys) = decide (a ∈ keys') := decide_eq_decide.mpr (h a)
  rw [hd]

theorem buildStep_congr {keys keys' : List String} (h : ∀ n, n ∈ keys ↔ n ∈ keys')
    (p : String × RawParam) : buildStep keys p = buildStep keys' p := by
  obtain ⟨k, v⟩ := p
  cases v with
  | num x => rfl
  | unitStr m => rfl
  | exprStr e =>
      simp only [buildStep]
      rw [depsOf_congr h]
  | badStr => rfl
  | sexpr e =>
      simp only [buildStep]
      rw [depsOf_congr h]
  | other => rfl

theorem buildDG_ok_iff (keys : List String) :
    ∀ d : List (String × RawParam),
      (∃ pr, buildDG keys d = .ok pr) ↔
      ∀ p ∈ d, p.2 ≠ RawParam.badStr ∧ p.2 ≠ RawParam.other := by
  intro d
  induction d with
  | nil =>
      constructor
      · intro _ p hp; cases hp
      · intro _; exact ⟨([], []), rfl⟩
  | cons e rest ih =>
      obtain ⟨k, v⟩ := e
      constructor
      · rintro ⟨pr, hpr⟩ p hp
        unfold buildDG at hpr
        cases hs : buildStep keys (k, v) with
        | error e0 => rw [hs] at hpr; cases hpr
        | ok q =>
            obtain ⟨v', ds⟩ := q
            rw [hs] at hpr
            cases hr : buildDG keys rest with
            | error pr2 => rw [hr] at hpr; cases hpr
            | ok pr2 =>
                rcases List.mem_cons.mp hp with rfl | hp'
                · constructor
                  · intro he
                    have he' : v = RawParam.badStr := he
                    rw [he'] at hs
                    simp [buildStep] at hs
                  · intro he
                    have he' : v = RawParam.other := he
                    rw [he'] at hs
                    simp [buildStep] at hs
                · exact (ih.mp ⟨pr2, hr⟩) p hp'
      · intro hall
        have hv := hall (k, v) (List.mem_cons_self _ _)
        have hs : ∃ q, buildStep keys (k, v) = .ok q := by
          cases v with
          | num x => exact ⟨_, rfl⟩
          | unitStr m => exact ⟨_, rfl⟩
          | exprStr e => exact ⟨_, rfl⟩
          | sexpr e => exact ⟨_, rfl⟩
          | badStr => exact absurd rfl hv.1
          | other => exact absurd rfl hv.2
        obtain ⟨q, hq⟩ := hs
        obtain ⟨v', ds⟩ := q
        obtain ⟨pr2, hpr2⟩ := ih.mpr (fun p hp => hall p (List.mem_cons_of_mem _ hp))
        obtain ⟨rest', g'⟩ := pr2
        refine ⟨((k, v') :: rest', (k, ds) :: g'), ?_⟩
        unfold buildDG
        rw [hq, hpr2]

theorem buildDG_lookup (keys : List String) :
    ∀ (d d2 : List (String × RawParam)) (G : List (String × List String)),
      buildDG keys d = .ok (d2, G) → ∀ k,
      (d.lookup k = none → d2.lookup k = none ∧ G.lookup k = none) ∧
      (∀ v, d.lookup k = some v → ∃ v' ds, buildStep keys (k, v) = .ok (v', ds) ∧
        d2.lookup k = some v' ∧ G.lookup k = some ds) := by
  intro d
  induction d with
  | nil =>
      intro d2 G h k
      simp [buildDG] at h
      obtain ⟨rfl, rfl⟩ := h
      exact ⟨fun _ => ⟨rfl, rfl⟩, fun v hv => by cases hv⟩
  | cons e rest ih =>
      intro d2 G h k
      obtain ⟨k0, v0⟩ := e
      unfold buildDG at h
      cases hs : buildStep keys (k0, v0) with
      | error e0 => rw [hs] at h; cases h
      | ok q =>
          obtain ⟨v0', ds0⟩ := q
          rw [hs] at h
          cases hr : buildDG keys rest with
          | error pr2 => rw [hr] at h; cases h
          | ok pr2 =>
              obtain ⟨rest', g'⟩ := pr2
              rw [hr] at h
              simp at h
              obtain ⟨h1, h2⟩ := h
              by_cases hk : k = k0
              · subst hk
                constructor
                · intro hn
                  exfalso
                  rw [List.lookup, beq_self_eq_true] at hn
                  cases hn
                · intro v hv
                  rw [List.lookup, beq_self_eq_true] at hv
                  injection hv with hv'
                  subst hv'
                  refine ⟨v0', ds0, hs, ?_, ?_⟩
                  · rw [← h1, List.lookup, beq_self_eq_true]
                  · rw [← h2, List.lookup, beq_self_eq_true]
              · have hb : (k == k0) = false := beq_false_of_ne hk
                have ihk := ih rest' g' hr k
                constructor
                · intro hn
                  have hn' : rest.lookup k = none := by
                    rw [List.lookup, hb] at hn; exact hn
                  obtain ⟨hd2, hG⟩ := ihk.1 hn'
                  constructor
                  · rw [← h1, List.lookup, hb]; exact hd2
                  · rw [← h2, List.lookup, hb]; exact hG
                · intro v hv
                  have hv' : rest.lookup k = some v := by
                    rw [List.lookup, hb] at hv; exact hv
                  obtain ⟨v', ds, hbs, hd2, hG⟩ := ihk.2 v hv'
                  refine ⟨v', ds, hbs, ?_, ?_⟩
                  · rw [← h1, List.lookup, hb]; exact hd2
                  · rw [← h2, List.lookup, hb]; exact hG

theorem buildStep_ok_shape {keys : List String} {k : String} {v w : RawParam}
    {ds : List String} (h : buildStep keys (k, v) = .ok (w, ds)) :
    (∃ x, w = RawParam.num x ∧ ds = []) ∨
    (∃ e, w = RawParam.sexpr e ∧ ds = depsOf keys k e) := by
  cases v with
  | num x =>
      simp [buildStep] at h
      obtain ⟨rfl, rfl⟩ := h
      exact Or.inl ⟨x, rfl, rfl⟩
  | unitStr m =>
      simp [buildStep] at h
      obtain ⟨rfl, rfl⟩ := h
      exact Or.inl ⟨m, rfl, rfl⟩
  | exprStr e =>
      simp [buildStep] at h
      obtain ⟨rfl, rfl⟩ := h
      exact Or.inr ⟨e, rfl, rfl⟩
  | badStr => simp [buildStep] at h
  | sexpr e =>
      simp [buildStep] at h
      obtain ⟨rfl, rfl⟩ := h
      exact Or.inr ⟨e, rfl, rfl⟩
  | other => simp [buildStep] at h

end RFSim
namespace RFSim
attribute [local semireducible] Rat.add Rat.mul Rat.sub Rat.inv

theorem cyclic_congr {G G' : List (String × List String)}
    (hmem : ∀ x, x ∈ G.map Prod.fst ↔ x ∈ G'.map Prod.fst)
    (hlk : ∀ k, G.lookup k = G'.lookup k) : Cyclic G → Cyclic G' := by
  rintro ⟨a, ha⟩
  refine ⟨a, Relation.TransGen.mono ?_ ha⟩
  intro x y hxy
  obtain ⟨h1, h2⟩ := hxy
  have hd : depsIn G x = depsIn G' x := by
    unfold depsIn
    rw [hlk x]
  exact ⟨(hmem x).mp h1, hd ▸ h2⟩

theorem resolve_run_char {d d2 : List (String × RawParam)}
    {G : List (String × List String)} {L : List String}
    (hnd : (keysOf d).Nodup) (hb : buildDepGraph d = .ok (d2, G))
    (hk : kahn G = .ok L) :
    ((∀ s ∈ keysOf d, denoteF d2 (keysOf d).length s ≠ none) →
      ∃ m, resolve d = .ok m ∧
        ∀ s, m.lookup s =
          if s ∈ keysOf d then denoteF d2 (keysOf d).length s else none) ∧
    (∀ m, resolve d = .ok m →
      ∀ s ∈ keysOf d, denoteF d2 (keysOf d).length s ≠ none) := by
  obtain ⟨hwf, hGkeys, hd2keys⟩ := buildDepGraph_wf hnd hb
  obtain ⟨hperm0, hLnd, htopoG⟩ := kahn_ok_valid hwf hk
  have hperm : L.Perm (keysOf d) := hGkeys ▸ hperm0
  have hLlen : L.length = (keysOf d).length := hperm.length_eq
  have hLmem : ∀ s, s ∈ L ↔ s ∈ keysOf d := fun s => hperm.mem_iff
  have hkeys2 : keysOf d2 = keysOf d := hd2keys
  have hful : ∀ s ∈ L, s ∈ keysOf d2 := by
    intro s hs
    rw [hkeys2]
    exact (hLmem s).mp hs
  have hchar := buildDG_lookup (keysOf d) d d2 G hb
  have hgood : ∀ k ∈ L, (∃ x, d2.lookup k = some (.num x)) ∨
      (∃ e, d2.lookup k = some (.sexpr e)) := by
    intro k hkL
    obtain ⟨v, hv⟩ := lookup_isSome_of_mem ((hLmem k).mp hkL)
    obtain ⟨v', ds, hbs, hd2, -⟩ := (hchar k).2 v hv
    rcases buildStep_ok_shape hbs with ⟨x, rfl, -⟩ | ⟨e, rfl, -⟩
    · exact Or.inl ⟨x, hd2⟩
    · exact Or.inr ⟨e, hd2⟩
  have htopo : ∀ (j : ℕ) (hj : j < L.length), ∀ e,
      d2.lookup (L.get ⟨j, hj⟩) = some (.sexpr e) →
      ∀ s ∈ e.freeVars, s ≠ L.get ⟨j, hj⟩ → s ∈ keysOf d2 → s ∈ L.take j := by
    intro j hj e he s hs hsne hskey
    obtain ⟨v, hv⟩ := lookup_isSome_of_mem ((hLmem _).mp (L.get_mem j hj))
    obtain ⟨v', ds, hbs, hd2, hG⟩ := (hchar (L.get ⟨j, hj⟩)).2 v hv
    rw [hd2] at he
    injection he with he'
    subst he'
    rcases buildStep_ok_shape hbs with ⟨x, hx, -⟩ | ⟨e2, he2, hds⟩
    · cases hx
    · injection he2 with he3
      subst he3
      subst hds
      have hdep : s ∈ depsIn G (L.get ⟨j, hj⟩) := by
        unfold depsIn
        rw [hG]
        apply List.mem_dedup.mpr
        apply List.mem_filter.mpr
        refine ⟨hs, ?_⟩
        rw [Bool.and_eq_true, decide_eq_true_eq, decide_eq_true_eq]
        exact ⟨hsne, hkeys2 ▸ hskey⟩
      exact htopoG j hj s hdep
  obtain ⟨hA, hB⟩ := resolveLoop_denote_aux hLnd hful hgood htopo L.length 0 []
    (by omega) (by omega) (by intro s; simp)
  have hres : resolve d = resolveLoop d2 L [] := by
    simp only [resolve, resolveRun, hb, hk]
  rw [List.drop_zero] at hA hB
  constructor
  · intro hall
    obtain ⟨m, hm, hcharm⟩ := hA (by
      intro k hkL
      rw [hLlen]
      exact hall k ((hLmem k).mp hkL))
    refine ⟨m, by rw [hres]; exact hm, ?_⟩
    intro s
    rw [hcharm s]
    by_cases hsL : s ∈ L
    · rw [if_pos hsL, if_pos ((hLmem s).mp hsL), hLlen]
    · rw [if_neg hsL, if_neg (fun h => hsL ((hLmem s).mpr h))]
  · intro m hm s hs
    have := hB m (by rw [← hres]; exact hm) s ((hLmem s).mpr hs)
    rw [hLlen] at this
    exact this

end RFSim
namespace RFSim
attribute [local semireducible] Rat.add Rat.mul Rat.sub Rat.inv

/-- C8: resolver order-independence.  If `resolve` succeeds on a
parameter dictionary `d` with duplicate-free keys, then on any
permutation `d'` of `d`'s entries (a different insertion order of the
same (name, expression) set) it also succeeds, and the two output
dictionaries are equal as name→value maps. -/
theorem resolve_perm_invariant {d d' : List (String × RawParam)}
    (hperm : d.Perm d') (hnd : (keysOf d).Nodup)
    {m : List (String × PFloat)} (hm : resolve d = .ok m) :
    ∃ m', resolve d' = .ok m' ∧ ∀ s, m.lookup s = m'.lookup s := by
  have hpk : (keysOf d).Perm (keysOf d') := hperm.map Prod.fst
  have hnd' : (keysOf d').Nodup := hpk.nodup_iff.mp hnd
  have hkmem : ∀ n, n ∈ keysOf d ↔ n ∈ keysOf d' := fun n => hpk.mem_iff
  have hklen : (keysOf d).length = (keysOf d').length := hpk.length_eq
  have hdlk : ∀ k, d.lookup k = d'.lookup k := perm_lookup hperm hnd
  obtain ⟨d2, G, hb⟩ : ∃ d2 G, buildDepGraph d = .ok (d2, G) := by
    cases hb0 : buildDepGraph d with
    | error pr =>
        exfalso
        obtain ⟨e0, st⟩ := pr
        have : resolve d = .error e0 := by simp only [resolve, resolveRun, hb0]
        rw [this] at hm; cases hm
    | ok pr =>
        obtain ⟨d2, G⟩ := pr
        exact ⟨d2, G, rfl⟩
  obtain ⟨hwf, hGkeys, hd2keys⟩ := buildDepGraph_wf hnd hb
  obtain ⟨L, hkL⟩ : ∃ L, kahn G = .ok L := by
    rcases kahn_ok_or_cycle hwf with h | h
    · exact h
    · exfalso
      have : resolve d = .error RErr.cycle := by simp only [resolve, resolveRun, hb, h]
      rw [this] at hm; cases hm
  obtain ⟨pr', hb'⟩ : ∃ pr, buildDG (keysOf d') d' = .ok pr := by
    apply (buildDG_ok_iff (keysOf d') d').mpr
    intro p hp
    exact (buildDG_ok_iff (keysOf d) d).mp ⟨(d2, G), hb⟩ p (hperm.mem_iff.mpr hp)
  obtain ⟨d2', G'⟩ := pr'
  have hb'' : buildDepGraph d' = .ok (d2', G') := hb'
  obtain ⟨hwf', hGkeys', hd2keys'⟩ := buildDepGraph_wf hnd' hb''
  have hchr := buildDG_lookup (keysOf d) d d2 G hb
  have hchr' := buildDG_lookup (keysOf d') d' d2' G' hb''
  have hd2lk : ∀ k, d2.lookup k = d2'.lookup k ∧ G.lookup k = G'.lookup k := by
    intro k
    cases hv : d.lookup k with
    | none =>
        have hvd' : d'.lookup k = none := by rw [← hdlk k]; exact hv
        obtain ⟨h1, h2⟩ := (hchr k).1 hv
        obtain ⟨h1', h2'⟩ := (hchr' k).1 hvd'
        exact ⟨by rw [h1, h1'], by rw [h2, h2']⟩
    | some v =>
        have hvd' : d'.lookup k = some v := by rw [← hdlk k]; exact hv
        obtain ⟨v1, ds1, hbs1, hd21, hG1⟩ := (hchr k).2 v hv
        obtain ⟨v2, ds2, hbs2, hd22, hG2⟩ := (hchr' k).2 v hvd'
        rw [buildStep_congr hkmem (k, v), hbs2] at hbs1
        injection hbs1 with hpr
        rw [Prod.mk.injEq] at hpr
        obtain ⟨rfl, rfl⟩ := hpr
        exact ⟨by rw [hd21, hd22], by rw [hG1, hG2]⟩
  have hGmem : ∀ x, x ∈ G'.map Prod.fst ↔ x ∈ G.map Prod.fst := by
    intro x
    rw [hGkeys', hGkeys]
    exact (hkmem x).symm
  obtain ⟨L', hkL'⟩ : ∃ L', kahn G' = .ok L' := by
    rcases kahn_ok_or_cycle hwf' with h | h
    · exact h
    · exfalso
      have hcyc : Cyclic G :=
        cyclic_congr hGmem (fun k => ((hd2lk k).2).symm)
          ((kahn_error_iff_cyclic hwf').mp h)
      have : kahn G = .error RErr.cycle := (kahn_error_iff_cyclic hwf).mpr hcyc
      rw [hkL] at this; cases this
  obtain ⟨hA, hB⟩ := resolve_run_char hnd hb hkL
  obtain ⟨hA', hB'⟩ := resolve_run_char hnd' hb'' hkL'
  have hden : ∀ f k, denoteF d2 f k = denoteF d2' f k :=
    denoteF_congr (fun k => (hd2lk k).1)
  have hall := hB m hm
  obtain ⟨m', hm', hchar'⟩ := hA' (by
    intro s hs
    rw [← hden, ← hklen]
    exact hall s ((hkmem s).mpr hs))
  obtain ⟨m0, hm0, hchar0⟩ := hA hall
  have hmm : m0 = m := by
    rw [hm] at hm0
    injection hm0 with h'
    exact h'.symm
  subst hmm
  refine ⟨m', hm', ?_⟩
  intro s
  rw [hchar0 s, hchar' s]
  by_cases hs : s ∈ keysOf d
  · rw [if_pos hs, if_pos ((hkmem s).mp hs), hklen, hden]
  · rw [if_neg hs, if_neg (fun h => hs ((hkmem s).mpr h))]

/-- Witness for C8 at a concrete two-entry dictionary and its reversal:
`resolve` succeeds on both orders and the outputs agree as maps. -/
theorem resolve_perm_invariant_witness :
    ∃ m', resolve [("b", RawParam.sexpr (.add (.var "a") (.lit 1))),
                   ("a", RawParam.num (.fin 1))] = .ok m' ∧
      ∀ s, List.lookup s [("a", PFloat.fin 1), ("b", PFloat.fin 2)] = m'.lookup s :=
  @resolve_perm_invariant
    [("a", RawParam.num (PFloat.fin 1)), ("b", RawParam.sexpr (.add (.var "a") (.lit 1)))]
    [("b", RawParam.sexpr (.add (.var "a") (.lit 1))), ("a", RawParam.num (PFloat.fin 1))]
    (by decide) (by decide)
    [("a", PFloat.fin 1), ("b", PFloat.fin 2)]
    (by decide)

end RFSim
namespace RFSim
attribute [local semireducible] Rat.add Rat.mul Rat.sub Rat.inv

theorem length_filterMap_lt {α β : Type _} {f : α → Option β} :
    ∀ {l : List α}, (∃ a ∈ l, f a = none) → (l.filterMap f).length < l.length := by
  intro l
  induction l with
  | nil => rintro ⟨a, ha, -⟩; cases ha
  | cons x xs ih =>
      rintro ⟨a, ha, hfa⟩
      cases hfx : f x with
      | none =>
          rw [List.filterMap_cons_none hfx]
          calc (xs.filterMap f).length ≤ xs.length := List.length_filterMap_le f xs
            _ < (x :: xs).length := by simp
      | some b =>
          rw [List.filterMap_cons_some hfx]
          have hax : a ∈ xs := by
            rcases List.mem_cons.mp ha with rfl | h
            · rw [hfx] at hfa; cases hfa
            · exact h
          have := ih ⟨a, hax, hfa⟩
          simp only [List.length_cons]
          omega

theorem reduceToExt_dim_ne {n : ℕ} (Yred : Matrix (Fin n) (Fin n) CQ)
    (nodeIdx : String → Option (Fin n)) (specs : List String)
    (habsent : ∃ s ∈ specs, nodeIdx s = none) :
    (reduceToExt Yred nodeIdx specs).1 ≠ specs.length := by
  have hext : (extIdx nodeIdx specs).length < specs.length :=
    length_filterMap_lt habsent
  unfold reduceToExt
  by_cases hint : (intIdx (extIdx nodeIdx specs)).isEmpty
  · rw [if_pos hint]
    show n ≠ specs.length
    -- the internal partition empty forces every index into ext, so
    -- n ≤ ext.length < specs.length
    have hcov : ∀ i : Fin n, i ∈ extIdx nodeIdx specs := by
      intro i
      by_contra hni
      have : i ∈ intIdx (extIdx nodeIdx specs) := by
        unfold intIdx
        apply List.mem_filter.mpr
        exact ⟨List.mem_finRange i, decide_eq_true hni⟩
      rw [List.isEmpty_iff] at hint
      rw [hint] at this
      cases this
    have hsub : (List.finRange n).Subperm (extIdx nodeIdx specs) :=
      (List.nodup_finRange n).subperm (fun i _ => hcov i)
    have hlen : n ≤ (extIdx nodeIdx specs).length := by
      have := hsub.length_le
      rwa [List.length_finRange] at this
    omega
  · rw [if_neg hint]
    show (extIdx nodeIdx specs).length ≠ specs.length
    omega

/-- C3: an external-port spec whose net is absent from the node-index map
is reported as the point's per-sample error.  The source silently drops
the spec from `ext_idx`, but the per-spec impedance vector keeps its full
length, so the dimension check of `y_to_s` necessarily fails — in the
Schur branch because the external block is strictly smaller than the spec
list, and in the no-internal branch because the whole reduced matrix
covers at most the surviving ports — and `evaluate_point` returns the
raised error as the sample's error entry. -/
theorem absent_port_net_reported {n : ℕ}
    (assembleY : ℚ → List (String × PFloat) → Matrix (Fin n) (Fin n) CQ)
    (nodeIdx : String → Option (Fin n)) (specs : List String)
    (imp : String → ℚ → List (String × PFloat) → CQ) (reg condM : ℚ)
    (rawGlobals compLocals : List (String × RawParam))
    (freq : ℚ) (overrides : List (String × ℚ))
    (habsent : ∃ s ∈ specs, nodeIdx s = none) :
    (evaluatePoint assembleY nodeIdx specs imp reg condM rawGlobals
      compLocals freq overrides).2.isSome = true := by
  cases hres : resolve (mergeUpdate (mergeUpdate rawGlobals compLocals)
      (overrides.map (fun p => (p.1, RawParam.num (.fin p.2))))) with
  | error e => simp only [evaluatePoint, hres]; rfl
  | ok resolved =>
      have hdim := reduceToExt_dim_ne (assembleY freq resolved) nodeIdx specs habsent
      have hZ : (specs.map (fun s => imp s freq resolved)).length = specs.length :=
        List.length_map _ _
      have hcheck : yToSChecked (reduceToExt (assembleY freq resolved) nodeIdx specs)
          (specs.map (fun s => imp s freq resolved)) reg condM =
          .error "Impedance vector length does not match number of ports" := by
        unfold yToSChecked
        rw [dif_neg]
        rw [hZ]
        exact fun h => hdim h.symm
      simp only [evaluatePoint, hres, hcheck]
      rfl

/-- Witness for C3: one net of two port specs is missing from a
1-node index; the evaluated point carries a per-sample error. -/
theorem absent_port_net_reported_witness :
    ((evaluatePoint (fun _ _ => (0 : Matrix (Fin 1) (Fin 1) CQ))
      (fun s => if s = "a" then some (0 : Fin 1) else none) ["a", "zzz"]
      (fun _ _ _ => cq 50 0) defaultReg 1 [] [] 1 []).2).isSome = true :=
  absent_port_net_reported _ _ _ _ _ _ _ _ _ _ ⟨"zzz", by decide, rfl⟩

end RFSim
namespace RFSim
attribute [local semireducible] Rat.add Rat.mul Rat.sub Rat.inv

theorem evaluatePoint_echo {n : ℕ}
    (assembleY : ℚ → List (String × PFloat) → Matrix (Fin n) (Fin n) CQ)
    (nodeIdx : String → Option (Fin n)) (specs : List String)
    (imp : String → ℚ → List (String × PFloat) → CQ) (reg condM : ℚ)
    (rawGlobals compLocals : List (String × RawParam))
    (freq : ℚ) (overrides : List (String × ℚ)) :
    (evaluatePoint assembleY nodeIdx specs imp reg condM rawGlobals
      compLocals freq overrides).1.frequency = freq ∧
    (evaluatePoint assembleY nodeIdx specs imp reg condM rawGlobals
      compLocals freq overrides).1.parameters = overrides := by
  cases hres : resolve (mergeUpdate (mergeUpdate rawGlobals compLocals)
      (overrides.map (fun p => (p.1, RawParam.num (.fin p.2))))) with
  | error e => simp [evaluatePoint, hres]
  | ok resolved =>
      cases hch : yToSChecked (reduceToExt (assembleY freq resolved) nodeIdx specs)
          (specs.map (fun s => imp s freq resolved)) reg condM with
      | ok S => simp [evaluatePoint, hres, hch]
      | error m => simp [evaluatePoint, hres, hch]

theorem length_flatMap_const {α β : Type _} (l : List α) (g : α → List β)
    (c : ℕ) (h : ∀ a, (g a).length = c) : (l.flatMap g).length = l.length * c := by
  induction l with
  | nil => simp
  | cons x xs ih =>
      rw [List.flatMap_cons, List.length_append, ih, h, List.length_cons,
        Nat.succ_mul, Nat.add_comm]

theorem length_pyProduct {α : Type _} :
    ∀ ls : List (List α), (pyProduct ls).length = (ls.map List.length).prod := by
  intro ls
  induction ls with
  | nil => rfl
  | cons l rest ih =>
      show (l.flatMap (fun x => (pyProduct rest).map (fun r => x :: r))).length = _
      rw [length_flatMap_const l _ (pyProduct rest).length
        (fun a => List.length_map _ _), ih, List.map_cons, List.prod_cons]

/-- C9: on a sweep configuration whose parsed form holds `N` frequency
samples and parameter value lists `v₁..vₖ`, the sweep built on the real
worker returns exactly `N·|v₁|·…·|vₖ|` result records — one per point,
errored or not — and the `(frequency, parameter-assignment)` keys carried
by the records enumerate exactly the Cartesian product of the frequency
list with the value lists (first list slowest, as
`itertools.product`). -/
theorem sweep_count_and_keys {n : ℕ} (np : NumpyLog)
    (assembleY : ℚ → List (String × PFloat) → Matrix (Fin n) (Fin n) CQ)
    (nodeIdx : String → Option (Fin n)) (specs : List String)
    (imp : String → ℚ → List (String × PFloat) → CQ) (reg condM : ℚ)
    (rawGlobals compLocals : List (String × RawParam))
    (cfg : List SweepEntry) {freqList : List ℚ}
    {paramSweeps : List (String × List ℚ)}
    (hcfg : parseSweepCfg np cfg = .ok (freqList, paramSweeps)) :
    ∃ entries errs,
      sweepModel np (fun f ov => evaluatePoint assembleY nodeIdx specs imp
        reg condM rawGlobals compLocals f ov) cfg = .ok (entries, errs) ∧
      entries.length = freqList.length * (paramSweeps.map (fun p => p.2.length)).prod ∧
      entries.map (fun r => (r.frequency, r.parameters)) =
        freqList.flatMap (fun f => (pyProduct (paramSweeps.map Prod.snd)).map
          (fun vs => (f, (paramSweeps.map Prod.fst).zip vs))) := by
  simp only [sweepModel, hcfg]
  refine ⟨_, _, rfl, ?_, ?_⟩
  · rw [List.length_map, List.length_map,
      length_flatMap_const _ _ (pyProduct (paramSweeps.map Prod.snd)).length
        (fun f => List.length_map _ _),
      length_pyProduct, List.map_map]
    rfl
  · simp only [List.map_map]
    refine (List.map_congr_left ?_).trans (List.map_id _)
    intro t ht
    obtain ⟨h1, h2⟩ := evaluatePoint_echo assembleY nodeIdx specs imp reg condM
      rawGlobals compLocals t.1 t.2
    show ((evaluatePoint assembleY nodeIdx specs imp reg condM rawGlobals
      compLocals t.1 t.2).1.frequency,
      (evaluatePoint assembleY nodeIdx specs imp reg condM rawGlobals
        compLocals t.1 t.2).1.parameters) = t
    rw [h1, h2]

/-- Witness for C9: a 3-point linear frequency sweep with one 2-value
parameter produces 6 = 3·2 records whose keys enumerate the product. -/
theorem sweep_count_and_keys_witness :
    ∃ entries errs,
      sweepModel ⟨fun _ => 0, fun _ _ k => List.replicate k 0,
          fun _ _ k => List.length_replicate k 0⟩
        (fun f ov => evaluatePoint (fun _ _ => (0 : Matrix (Fin 0) (Fin 0) CQ))
          (fun _ => none) [] (fun _ _ _ => cq 50 0) defaultReg 1 [] [] f ov)
        [⟨"f", some (1, 2), some 3, "lin", none⟩,
         ⟨"R", none, none, "lin", some [100, 1000]⟩] = .ok (entries, errs) ∧
      entries.length = [1, 3/2, 2].length * ([("R", [(100 : ℚ), 1000])].map
        (fun p => p.2.length)).prod ∧
      entries.map (fun r => (r.frequency, r.parameters)) =
        [(1 : ℚ), 3/2, 2].flatMap (fun f => (pyProduct ([("R", [(100 : ℚ), 1000])].map
          Prod.snd)).map (fun vs => (f, ([("R", [(100 : ℚ), 1000])].map Prod.fst).zip vs))) :=
  @sweep_count_and_keys 0
    ⟨fun _ => 0, fun _ _ k => List.replicate k 0, fun _ _ k => List.length_replicate k 0⟩
    (fun _ _ => (0 : Matrix (Fin 0) (Fin 0) CQ)) (fun _ => none) []
    (fun _ _ _ => cq 50 0) defaultReg 1 [] []
    [⟨"f", some (1, 2), some 3, "lin", none⟩,
     ⟨"R", none, none, "lin", some [100, 1000]⟩]
    [1, 3/2, 2] [("R", [(100 : ℚ), 1000])] (by decide)

end RFSim
namespace RFSim
attribute [local semireducible] Rat.add Rat.mul Rat.sub Rat.inv

theorem cqInv_eq_inv {n : ℕ} (A : Matrix (Fin n) (Fin n) CQ) : cqInv A = A⁻¹ := by
  rw [Matrix.inv_def, cqInv, Ring.inverse_eq_inv]

/-- C4 (amended): the closed form `y_to_s` actually computes.  With
`R i = Re(Z0 i)` it returns
`diag(1/√R) · ((diag(1/R) − Y) · (diag(1/R) + Y + reg'·I)⁻¹) · diag(√R)`:
the port normalization uses the real part of `Z0` (not the complex
vector), the `diag(1/√R)` factor sits on the left and `diag(√R)` on the
right (the transpose arrangement of the spec's formula), and the
regularization `reg'·I` — `reg' = max(reg, cond·1e-12)` past the `1e6`
condition threshold and the caller's `reg` (default 1e-9) otherwise — is
added unconditionally before inverting. -/
theorem y_to_s_closed_form {n : ℕ} (Y : Matrix (Fin n) (Fin n) CQ)
    (Z0 : Fin n → CQ) (reg condM : ℚ) :
    y_to_s Y Z0 reg condM =
      Matrix.diagonal (fun i => cq (1 / ratSqrt (Z0 i).re) 0) *
      ((Matrix.diagonal (fun i => cq (1 / (Z0 i).re) 0) - Y) *
        (Matrix.diagonal (fun i => cq (1 / (Z0 i).re) 0) + Y +
          cq (if condThreshold < condM then max reg (condM / 10 ^ 12) else reg) 0 •
            (1 : Matrix (Fin n) (Fin n) CQ))⁻¹) *
      Matrix.diagonal (fun i => cq (ratSqrt (Z0 i).re) 0) := by
  simp only [y_to_s, robust_inv, cqInv_eq_inv, mul_one_div]

/-- C4 counterexample: at `Y = diag(0, 3/4)`, `Z₀ = (1, 4)` and condition
number 1 (below every threshold), the value `y_to_s` returns with its
default regularization differs from the spec's formula
`D·((Y₀−Y)·(Y₀+Y)⁻¹)·D⁻¹` with default `reg = 1e-12`, both with the
spec's `1e6`-style threshold (no regularization triggered) and with a
zero threshold (regularization by `1e-12` triggered). -/
theorem y_to_s_spec_counterexample :
    y_to_s !![cq 0 0, cq 0 0; cq 0 0, cq (3/4) 0] ![cq 1 0, cq 4 0] defaultReg 1 ≠
      spec_y_to_s !![cq 0 0, cq 0 0; cq 0 0, cq (3/4) 0] ![cq 1 0, cq 4 0]
        (1 / 10 ^ 12) 1 condThreshold ∧
    y_to_s !![cq 0 0, cq 0 0; cq 0 0, cq (3/4) 0] ![cq 1 0, cq 4 0] defaultReg 1 ≠
      spec_y_to_s !![cq 0 0, cq 0 0; cq 0 0, cq (3/4) 0] ![cq 1 0, cq 4 0]
        (1 / 10 ^ 12) 1 0 := by
  constructor <;> decide

end RFSim
